import Mathlib

/-!
Verification of the `percentiletracker` crate (`src/percentiletracker/src/lib.rs`).

The Rust code is shallowly embedded as pure Lean functions: the `RefCell`
internal mutability of `PercentileTracker` is modelled by explicit state
passing (operations return the updated tracker), machine `usize` arithmetic is
modelled by `Nat`, and every Rust panic (index out of bounds, the `panic!()`
assertion in `insert`, the argument check in `new`, debug-mode subtraction
underflow) is modelled by `Except PanicKind`.

Two modelling notes:

* `slice::binary_search_by` is embedded as the exact loop of the Rust standard
  library (probe `mid = left + (right - left) / 2`, comparator result `.lt`
  moves `left` past `mid`, `.gt` moves `right` to `mid`, `.eq` returns
  `found mid`), so tie-breaking on duplicate minima matches the real program.

* `slice::select_nth_unstable(mid)` only guarantees that after the call the
  element at `mid` is the one a full sort would put there, everything before
  is `≤` it and everything after is `≥` it; the exact permutation is
  unspecified.  The multisets of both halves are nevertheless uniquely
  determined (every element strictly below the pivot value lands in the lower
  half, every element strictly above in the upper half, and copies of the
  pivot value fill the remaining slots by count), so partitioning the fully
  sorted list is a faithful refinement.  `split_at_median` is embedded that
  way; both result buckets are marked unsorted exactly as in the source, so
  no downstream observation distinguishes the two.

The Rust loops in `rebalance` are embedded with an explicit fuel parameter;
fuel exhaustion returns a panic marker and is proved unreachable for the fuel
the embedding passes (the proofs below never rely on the exhaustion branch).
-/

set_option linter.unusedSectionVars false

instance {ε α : Type} [DecidableEq ε] [DecidableEq α] : DecidableEq (Except ε α)
  | .error a, .error b =>
    if h : a = b then .isTrue (by rw [h]) else .isFalse (by simp [h])
  | .error _, .ok _ => .isFalse (by simp)
  | .ok _, .error _ => .isFalse (by simp)
  | .ok a, .ok b =>
    if h : a = b then .isTrue (by rw [h]) else .isFalse (by simp [h])

/-- Kinds of Rust panics that the embedded operations can raise. -/
inductive PanicKind where
  | invalidArgument
  | assertionFailure
  | indexOutOfBounds
  | subtractionOverflow
deriving DecidableEq

/-- Embedding of `const MAX_BUCKET_SIZE: usize = 64`. -/
def MAX_BUCKET_SIZE : Nat := 64

/-- Embedding of `struct Bucket<T>`: cached minimum, contents, sorted flag. -/
structure Bucket (T : Type) where
  min_value : T
  values : List T
  sorted : Bool
deriving DecidableEq

variable {T : Type} [LinearOrder T]

/-- Embedding of `Ord::cmp` for a total order (used by `binary_search_by`). -/
def cmp3 (a b : T) : Ordering :=
  if a < b then .lt else if a = b then .eq else .gt

/-- Result of `slice::binary_search_by`: `Ok(i)` or `Err(i)`. -/
inductive BSResult where
  | found (i : Nat)
  | notFound (i : Nat)
deriving DecidableEq

/-- Loop of `slice::binary_search_by` from the Rust standard library, with
explicit fuel (the fuel passed by `binary_search_by` is never exhausted). -/
def binarySearchGo (f : α → Ordering) (xs : List α) : Nat → Nat → Nat → BSResult
  | 0, left, _ => .notFound left
  | fuel + 1, left, right =>
    if left < right then
      let mid := left + (right - left) / 2
      match xs[mid]? with
      | none => .notFound left
      | some a =>
        match f a with
        | .lt => binarySearchGo f xs fuel (mid + 1) right
        | .eq => .found mid
        | .gt => binarySearchGo f xs fuel left mid
    else .notFound left

/-- Embedding of `slice::binary_search_by`. -/
def binary_search_by (f : α → Ordering) (xs : List α) : BSResult :=
  binarySearchGo f xs (xs.length + 1) 0 xs.length

/-- Embedding of `Bucket::new`. -/
def Bucket.new (value : T) : Bucket T :=
  { min_value := value, values := [value], sorted := true }

/-- Embedding of `Bucket::min`. -/
def Bucket.min (b : Bucket T) : T := b.min_value

/-- Embedding of `Bucket::len`. -/
def Bucket.len (b : Bucket T) : Nat := b.values.length

/-- Embedding of `Bucket::push`. -/
def Bucket.push (b : Bucket T) (num : T) : Bucket T :=
  { b with values := b.values ++ [num], sorted := false }

/-- Embedding of `Bucket::update_min_value`. -/
def Bucket.update_min_value (b : Bucket T) (new_min : T) : Bucket T :=
  { b with min_value := new_min }

/-- Embedding of `Vec::sort_unstable` on the contents of a bucket. -/
def sortList (l : List T) : List T := l.insertionSort (· ≤ ·)

/-- Embedding of `Bucket::ensure_sorted`. -/
def Bucket.ensure_sorted (b : Bucket T) : Bucket T :=
  if b.sorted then b else { b with values := sortList b.values, sorted := true }

/-- Embedding of `Bucket::get_value_at` (`None` models the index panic). -/
def Bucket.get_value_at (b : Bucket T) (index : Nat) : Option T :=
  b.values[index]?

/-- Embedding of `Bucket::split_at_median`; `none` models the index panic on
an empty bucket.  `select_nth_unstable(mid)` followed by `split_off(mid)` is
modelled on the fully sorted contents (see the header comment). -/
def Bucket.split_at_median (b : Bucket T) : Option (Bucket T × Bucket T) :=
  let mid_idx := b.values.length / 2
  let s := sortList b.values
  match s[mid_idx]? with
  | none => none
  | some pivot_value =>
    some ({ b with values := s.take mid_idx, sorted := false },
          { min_value := pivot_value, values := s.drop mid_idx, sorted := false })

/-- Embedding of `struct PercentileTracker<T>`; the `RefCell` fields become
plain fields updated by state passing. -/
structure PercentileTracker (T : Type) where
  buckets : List (Bucket T)
  total_count : Nat
  percentile_bucket_idx : Nat
  percentile_bucket_offset : Nat
  percentile : Nat
  needs_rebalancing : Bool
deriving DecidableEq

/-- Embedding of `PercentileTracker::new`; the out-of-range `panic!` becomes
an `invalidArgument` error. -/
def PercentileTracker.new (percentile : Nat) :
    Except PanicKind (PercentileTracker T) :=
  if 1 ≤ percentile ∧ percentile ≤ 99 then
    .ok { buckets := [], total_count := 0, percentile_bucket_idx := 0,
          percentile_bucket_offset := 0, percentile := percentile,
          needs_rebalancing := false }
  else .error .invalidArgument

/-- Common tail of the non-empty branches of `PercentileTracker::insert`:
store the updated bucket vector, bump `total_count`, bump the offset when the
insertion happened before the percentile bucket, set the rebalancing flag. -/
def PercentileTracker.finishInsert (t : PercentileTracker T)
    (buckets' : List (Bucket T)) (inserted_into : Nat) :
    Except PanicKind (PercentileTracker T) :=
  .ok { t with
        buckets := buckets',
        total_count := t.total_count + 1,
        percentile_bucket_offset :=
          if inserted_into < t.percentile_bucket_idx then
            t.percentile_bucket_offset + 1
          else t.percentile_bucket_offset,
        needs_rebalancing := true }

/-- Embedding of `PercentileTracker::insert`.  The `panic!()` in the
unreachable routing case becomes an `assertionFailure` error. -/
def PercentileTracker.insert (t : PercentileTracker T) (num : T) :
    Except PanicKind (PercentileTracker T) :=
  if t.buckets.isEmpty then
    .ok { t with buckets := [Bucket.new num], total_count := t.total_count + 1 }
  else
    let bucket_idx :=
      match binary_search_by (fun b => cmp3 b.min_value num) t.buckets with
      | .found idx => idx
      | .notFound idx => idx
    if bucket_idx ≥ t.buckets.length then
      match t.buckets[t.buckets.length - 1]? with
      | some last_bucket =>
        t.finishInsert (t.buckets.set (t.buckets.length - 1) (last_bucket.push num))
          (t.buckets.length - 1)
      | none => t.finishInsert (t.buckets ++ [Bucket.new num]) 0
    else
      match t.buckets[bucket_idx]? with
      | none => .error .indexOutOfBounds
      | some b =>
        if bucket_idx = 0 ∧ num < b.min_value then
          t.finishInsert (t.buckets.set 0 ((b.push num).update_min_value num)) 0
        else if num = b.min_value then
          t.finishInsert (t.buckets.set bucket_idx (b.push num)) bucket_idx
        else if bucket_idx = 0 then
          .error .assertionFailure
        else
          match t.buckets[bucket_idx - 1]? with
          | none => .error .indexOutOfBounds
          | some bprev =>
            t.finishInsert (t.buckets.set (bucket_idx - 1) (bprev.push num))
              (bucket_idx - 1)

/-- Embedding of `PercentileTracker::get_target_pos`. -/
def PercentileTracker.get_target_pos (t : PercentileTracker T) : Nat :=
  t.percentile * t.total_count / 100

/-- Sum of the sizes of a list of buckets. -/
def sumLens : List (Bucket T) → Nat
  | [] => 0
  | b :: rest => b.values.length + sumLens rest

/-- Embedding of `Vec::insert` at a position (positions past the end cannot
occur at the call site in `rebalance`). -/
def insertAt (l : List α) (i : Nat) (a : α) : List α :=
  l.take i ++ a :: l.drop i

/-- Forward walk of `rebalance` step 1 (`while offset_into_bucket >=
buckets[percentile_bucket_idx].len()`); fuel `buckets.length + 1` is enough. -/
def walkForward (buckets : List (Bucket T)) (target_pos : Nat) :
    Nat → Nat → Nat → Except PanicKind (Nat × Nat)
  | 0, _, _ => .error .indexOutOfBounds
  | fuel + 1, idx, offset =>
    match buckets[idx]? with
    | none => .error .indexOutOfBounds
    | some b =>
      if target_pos - offset ≥ b.values.length then
        walkForward buckets target_pos fuel (idx + 1) (offset + b.values.length)
      else .ok (idx, offset)

/-- Backward walk of `rebalance` step 1 (`while target_pos <
percentile_bucket_offset`); `usize` underflow is a `subtractionOverflow`
error; fuel `idx + 1` is enough. -/
def walkBackward (buckets : List (Bucket T)) (target_pos : Nat) :
    Nat → Nat → Nat → Except PanicKind (Nat × Nat)
  | 0, _, _ => .error .indexOutOfBounds
  | fuel + 1, idx, offset =>
    if target_pos < offset then
      if idx = 0 then .error .subtractionOverflow
      else
        match buckets[idx - 1]? with
        | none => .error .indexOutOfBounds
        | some b =>
          if offset < b.values.length then .error .subtractionOverflow
          else walkBackward buckets target_pos fuel (idx - 1) (offset - b.values.length)
    else .ok (idx, offset)

/-- Splitting loop of `rebalance` step 2 (`while
buckets[percentile_bucket_idx].len() > MAX_BUCKET_SIZE`); the target bucket
shrinks at every split, so fuel `sumLens buckets + 1` is enough. -/
def splitLoop (target_pos : Nat) :
    Nat → List (Bucket T) → Nat → Nat →
    Except PanicKind (List (Bucket T) × Nat × Nat)
  | 0, _, _, _ => .error .indexOutOfBounds
  | fuel + 1, buckets, idx, offset =>
    match buckets[idx]? with
    | none => .error .indexOutOfBounds
    | some b =>
      if b.values.length > MAX_BUCKET_SIZE then
        match b.split_at_median with
        | none => .error .indexOutOfBounds
        | some (lower, upper) =>
          let buckets' := insertAt (buckets.set idx lower) (idx + 1) upper
          if target_pos - offset ≥ lower.values.length then
            splitLoop target_pos fuel buckets' (idx + 1) (offset + lower.values.length)
          else
            splitLoop target_pos fuel buckets' idx offset
      else .ok (buckets, idx, offset)

/-- Embedding of `PercentileTracker::rebalance`. -/
def PercentileTracker.rebalance (t : PercentileTracker T) :
    Except PanicKind (PercentileTracker T) :=
  if t.needs_rebalancing = false then .ok t
  else
    let target_pos := t.get_target_pos
    let step1 :=
      if target_pos ≥ t.percentile_bucket_offset then
        walkForward t.buckets target_pos (t.buckets.length + 1)
          t.percentile_bucket_idx t.percentile_bucket_offset
      else
        walkBackward t.buckets target_pos (t.percentile_bucket_idx + 1)
          t.percentile_bucket_idx t.percentile_bucket_offset
    match step1 with
    | .error e => .error e
    | .ok (idx1, offset1) =>
      match splitLoop target_pos (sumLens t.buckets + 1) t.buckets idx1 offset1 with
      | .error e => .error e
      | .ok (buckets2, idx2, offset2) =>
        match buckets2[idx2]? with
        | none => .error .indexOutOfBounds
        | some b =>
          .ok { t with
                buckets := buckets2.set idx2 b.ensure_sorted,
                percentile_bucket_idx := idx2,
                percentile_bucket_offset := offset2,
                needs_rebalancing := false }

/-- Embedding of `PercentileTracker::get_percentile`; the returned tracker is
the post-`RefCell`-mutation state. -/
def PercentileTracker.get_percentile (t : PercentileTracker T) :
    Except PanicKind (T × PercentileTracker T) :=
  match t.rebalance with
  | .error e => .error e
  | .ok t' =>
    let target_pos := t'.get_target_pos
    let offset_into_bucket := target_pos - t'.percentile_bucket_offset
    match t'.buckets[t'.percentile_bucket_idx]? with
    | none => .error .indexOutOfBounds
    | some b =>
      match b.get_value_at offset_into_bucket with
      | none => .error .indexOutOfBounds
      | some v => .ok (v, t')

/-- Embedding of `PercentileTracker::verify_bucket_offset`. -/
def PercentileTracker.verify_bucket_offset (t : PercentileTracker T) :
    Except PanicKind (Bool × PercentileTracker T) :=
  match t.rebalance with
  | .error e => .error e
  | .ok t' =>
    .ok (decide (sumLens (t'.buckets.take t'.percentile_bucket_idx) =
                 t'.percentile_bucket_offset), t')

/-- External operations a caller can perform on a tracker after construction. -/
inductive Op (T : Type) where
  | ins (v : T)
  | query
deriving DecidableEq

/-- Run a sequence of operations, returning the final tracker state. -/
def applyOps (t : PercentileTracker T) : List (Op T) →
    Except PanicKind (PercentileTracker T)
  | [] => .ok t
  | .ins v :: rest =>
    match t.insert v with
    | .error e => .error e
    | .ok t' => applyOps t' rest
  | .query :: rest =>
    match t.get_percentile with
    | .error e => .error e
    | .ok (_, t') => applyOps t' rest

/-- Run a sequence of operations, collecting the value returned by every
`get_percentile` query. -/
def runOps (t : PercentileTracker T) : List (Op T) →
    Except PanicKind (List T)
  | [] => .ok []
  | .ins v :: rest =>
    match t.insert v with
    | .error e => .error e
    | .ok t' => runOps t' rest
  | .query :: rest =>
    match t.get_percentile with
    | .error e => .error e
    | .ok (v, t') =>
      match runOps t' rest with
      | .error e => .error e
      | .ok out => .ok (v :: out)

/-- Oracle from the specification: each query must report the element at
zero-based index `percentile * count / 100` of the ascending sort of all
values inserted so far (duplicates counted individually). -/
def oracleRun (p : Nat) (inserted : List T) : List (Op T) → List (Option T)
  | [] => []
  | .ins v :: rest => oracleRun p (inserted ++ [v]) rest
  | .query :: rest =>
    (sortList inserted)[p * inserted.length / 100]? :: oracleRun p inserted rest

/-- Check that every query in the list is preceded by at least one insertion;
the flag records whether an insertion has been seen already. -/
def insBefore : Bool → List (Op T) → Bool
  | _, [] => true
  | _, .ins _ :: rest => insBefore true rest
  | seen, .query :: rest => seen && insBefore seen rest

/-- Concatenation of the contents of a list of buckets. -/
def joinVals : List (Bucket T) → List T
  | [] => []
  | b :: rest => b.values ++ joinVals rest

/-- Concatenation of the sorted contents of a list of buckets. -/
def joinSorted : List (Bucket T) → List T
  | [] => []
  | b :: rest => sortList b.values ++ joinSorted rest

/-- Cross-bucket ordering: everything in the first bucket is bounded by the
cached minimum of the second. -/
def crossRel (b1 b2 : Bucket T) : Prop :=
  ∀ x ∈ b1.values, x ≤ b2.min_value

/-- Structural invariant of the bucket sequence. -/
structure BucketsOk (bs : List (Bucket T)) : Prop where
  nonempty : ∀ b ∈ bs, b.values ≠ []
  min_le : ∀ b ∈ bs, ∀ x ∈ b.values, b.min_value ≤ x
  min_mem : ∀ b ∈ bs, b.min_value ∈ b.values
  cross : List.Pairwise crossRel bs
  flag_sorted : ∀ b ∈ bs, b.sorted = true → List.Sorted (· ≤ ·) b.values

/-- Full tracker invariant, relating a tracker state to the list `vals` of
all values inserted so far. -/
structure TrackerInv (t : PercentileTracker T) (vals : List T) : Prop where
  bok : BucketsOk t.buckets
  count_eq : t.total_count = vals.length
  perm : List.Perm (joinVals t.buckets) vals
  idx_lt : t.buckets ≠ [] → t.percentile_bucket_idx < t.buckets.length
  offset_eq : t.percentile_bucket_offset =
    sumLens (t.buckets.take t.percentile_bucket_idx)
  perc_lb : 1 ≤ t.percentile
  perc_ub : t.percentile ≤ 99
  empty_flag : t.buckets = [] →
    t.percentile_bucket_idx = 0 ∧ t.needs_rebalancing = false
  clean_ok : t.needs_rebalancing = false →
    ∀ b, t.buckets[t.percentile_bucket_idx]? = some b →
      t.percentile_bucket_offset ≤ t.get_target_pos ∧
      t.get_target_pos - t.percentile_bucket_offset < b.values.length ∧
      b.sorted = true ∧ b.values.length ≤ MAX_BUCKET_SIZE

/-- Tracker states reachable through the public interface. -/
inductive Reachable : PercentileTracker T → Prop where
  | constructed (p : Nat) (t : PercentileTracker T) :
      PercentileTracker.new p = .ok t → Reachable t
  | step_insert (t t' : PercentileTracker T) (num : T) :
      Reachable t → t.insert num = .ok t' → Reachable t'
  | step_query (t t' : PercentileTracker T) (v : T) :
      Reachable t → t.get_percentile = .ok (v, t') → Reachable t'

/-! ### Basic facts about the comparator and sorting -/

theorem cmp3_eq_lt {a b : T} : cmp3 a b = .lt ↔ a < b := by
  unfold cmp3
  split
  · simp_all
  · split <;> simp_all

theorem cmp3_eq_eq {a b : T} : cmp3 a b = .eq ↔ a = b := by
  unfold cmp3
  split
  · constructor
    · intro h; cases h
    · intro h; subst h; simp_all
  · split <;> simp_all

theorem cmp3_eq_gt {a b : T} : cmp3 a b = .gt ↔ b < a := by
  unfold cmp3
  split
  · constructor
    · intro h; cases h
    · intro h; exact absurd (lt_trans h (by assumption)) (lt_irrefl _)
  · split
    · constructor
      · intro h; cases h
      · intro h; subst_vars; exact absurd h (lt_irrefl _)
    · simp only [true_iff]
      rcases lt_trichotomy a b with h | h | h
      · simp_all
      · simp_all
      · exact h

theorem sortList_perm (l : List T) : List.Perm (sortList l) l :=
  List.perm_insertionSort _ l

theorem sortList_sorted (l : List T) : List.Sorted (· ≤ ·) (sortList l) :=
  List.sorted_insertionSort _ l

theorem sortList_length (l : List T) : (sortList l).length = l.length :=
  List.length_insertionSort _ l

theorem sortList_mem {l : List T} {x : T} : x ∈ sortList l ↔ x ∈ l :=
  (sortList_perm l).mem_iff

theorem sortList_eq_self {l : List T} (h : List.Sorted (· ≤ ·) l) :
    sortList l = l :=
  List.eq_of_perm_of_sorted (sortList_perm l) (sortList_sorted l) h

/-! ### Facts about `joinVals`, `joinSorted` and `sumLens` -/

theorem joinVals_append (l1 l2 : List (Bucket T)) :
    joinVals (l1 ++ l2) = joinVals l1 ++ joinVals l2 := by
  induction l1 with
  | nil => rfl
  | cons b rest ih => simp [joinVals, ih]

theorem joinSorted_append (l1 l2 : List (Bucket T)) :
    joinSorted (l1 ++ l2) = joinSorted l1 ++ joinSorted l2 := by
  induction l1 with
  | nil => rfl
  | cons b rest ih => simp [joinSorted, ih]

theorem sumLens_append (l1 l2 : List (Bucket T)) :
    sumLens (l1 ++ l2) = sumLens l1 + sumLens l2 := by
  induction l1 with
  | nil => simp [sumLens]
  | cons b rest ih => simp [sumLens, ih]; omega

theorem length_joinVals (l : List (Bucket T)) :
    (joinVals l).length = sumLens l := by
  induction l with
  | nil => rfl
  | cons b rest ih => simp [joinVals, sumLens, ih]

theorem mem_joinVals {l : List (Bucket T)} {x : T} :
    x ∈ joinVals l ↔ ∃ b ∈ l, x ∈ b.values := by
  induction l with
  | nil => simp [joinVals]
  | cons b rest ih => simp [joinVals, ih]

theorem mem_joinSorted {l : List (Bucket T)} {x : T} :
    x ∈ joinSorted l ↔ ∃ b ∈ l, x ∈ b.values := by
  induction l with
  | nil => simp [joinSorted]
  | cons b rest ih => simp [joinSorted, sortList_mem, ih]

theorem joinSorted_perm_joinVals (l : List (Bucket T)) :
    List.Perm (joinSorted l) (joinVals l) := by
  induction l with
  | nil => exact List.Perm.refl _
  | cons b rest ih => exact List.Perm.append (sortList_perm b.values) ih

theorem sumLens_take_le (l : List (Bucket T)) (i : Nat) :
    sumLens (l.take i) ≤ sumLens l := by
  conv_rhs => rw [← List.take_append_drop i l]
  rw [sumLens_append]
  omega

theorem sumLens_take_of_le {l : List (Bucket T)} {i : Nat} (h : l.length ≤ i) :
    sumLens (l.take i) = sumLens l := by
  rw [List.take_of_length_le h]

theorem sumLens_take_succ {l : List (Bucket T)} {i : Nat} {b : Bucket T}
    (h : l[i]? = some b) :
    sumLens (l.take (i + 1)) = sumLens (l.take i) + b.values.length := by
  obtain ⟨hi, hb⟩ := List.getElem?_eq_some.mp h
  rw [← List.take_concat_get' l i hi, sumLens_append, hb]
  simp [sumLens]

theorem bucket_len_le_sumLens {l : List (Bucket T)} {i : Nat} {b : Bucket T}
    (h : l[i]? = some b) : b.values.length ≤ sumLens l := by
  obtain ⟨hi, hb⟩ := List.getElem?_eq_some.mp h
  have h1 := sumLens_take_succ h
  have h2 := sumLens_take_le l (i + 1)
  omega

theorem sorted_joinSorted {l : List (Bucket T)}
    (hmin : ∀ b ∈ l, ∀ x ∈ b.values, b.min_value ≤ x)
    (hcross : List.Pairwise crossRel l) :
    List.Sorted (· ≤ ·) (joinSorted l) := by
  induction l with
  | nil => exact List.sorted_nil
  | cons b rest ih =>
    have hrest : List.Sorted (· ≤ ·) (joinSorted rest) :=
      ih (fun b' hb' => hmin b' (List.mem_cons_of_mem _ hb')) hcross.of_cons
    have hb : List.Sorted (· ≤ ·) (sortList b.values) := sortList_sorted _
    show List.Sorted (· ≤ ·) (sortList b.values ++ joinSorted rest)
    rw [List.Sorted, List.pairwise_append]
    refine ⟨hb, hrest, ?_⟩
    intro x hx y hy
    have hx' : x ∈ b.values := sortList_mem.mp hx
    obtain ⟨b', hb', hy'⟩ := mem_joinSorted.mp hy
    have h1 : x ≤ b'.min_value := (List.rel_of_pairwise_cons hcross hb') x hx'
    have h2 : b'.min_value ≤ y := hmin b' (List.mem_cons_of_mem _ hb') y hy'
    exact le_trans h1 h2

/-- Adjacent monotonicity of the cached bucket minima, derived from the
cross-bucket ordering and minimum attainment. -/
theorem minsMono {bs : List (Bucket T)} (h : BucketsOk bs)
    {i j : Nat} (hi : i < bs.length) (hj : j < bs.length) (hij : i ≤ j) :
    (bs.get ⟨i, hi⟩).min_value ≤ (bs.get ⟨j, hj⟩).min_value := by
  rcases Nat.lt_or_ge i j with hlt | hge
  · have hc : crossRel (bs.get ⟨i, hi⟩) (bs.get ⟨j, hj⟩) := by
      have := List.pairwise_iff_getElem.mp h.cross i j hi hj hlt
      simpa using this
    exact hc _ (h.min_mem _ (by simp [List.getElem_mem]))
  · have : i = j := le_antisymm hij hge
    subst this
    exact le_refl _

/-! ### Specification of the embedded binary search -/

theorem binarySearchGo_spec (key : α → T) (num : T) (xs : List α)
    (hsort : ∀ i j (hi : i < xs.length) (hj : j < xs.length), i ≤ j →
      key (xs.get ⟨i, hi⟩) ≤ key (xs.get ⟨j, hj⟩)) :
    ∀ fuel left right, left ≤ right → right ≤ xs.length → right - left ≤ fuel →
    (∀ i (hi : i < xs.length), i < left → key (xs.get ⟨i, hi⟩) < num) →
    (∀ i (hi : i < xs.length), right ≤ i → num < key (xs.get ⟨i, hi⟩)) →
    (match binarySearchGo (fun a => cmp3 (key a) num) xs fuel left right with
     | .found k => ∃ hk : k < xs.length, key (xs.get ⟨k, hk⟩) = num
     | .notFound k => k ≤ xs.length ∧
         (∀ i (hi : i < xs.length), i < k → key (xs.get ⟨i, hi⟩) < num) ∧
         (∀ i (hi : i < xs.length), k ≤ i → num < key (xs.get ⟨i, hi⟩))) := by
  intro fuel
  induction fuel with
  | zero =>
    intro left right hlr hrlen hfuel hlo hhi
    have : left = right := by omega
    subst this
    simp only [binarySearchGo]
    exact ⟨le_trans hlr hrlen, hlo, hhi⟩
  | succ fuel ih =>
    intro left right hlr hrlen hfuel hlo hhi
    by_cases hcond : left < right
    · have hmidlt : left + (right - left) / 2 < xs.length := by omega
      have hget : xs[left + (right - left) / 2]? =
          some (xs.get ⟨left + (right - left) / 2, hmidlt⟩) := by
        simp [List.getElem?_eq_getElem hmidlt]
      rcases hord : cmp3 (key (xs.get ⟨left + (right - left) / 2, hmidlt⟩)) num with hc | hc | hc
      · -- comparator `.lt`: the probed key is below `num`
        have hklt : key (xs.get ⟨left + (right - left) / 2, hmidlt⟩) < num :=
          cmp3_eq_lt.mp hord
        have hstep : binarySearchGo (fun a => cmp3 (key a) num) xs (fuel + 1) left right =
            binarySearchGo (fun a => cmp3 (key a) num) xs fuel
              (left + (right - left) / 2 + 1) right := by
          simp only [binarySearchGo, if_pos hcond, hget, hord]
        rw [hstep]
        refine ih (left + (right - left) / 2 + 1) right (by omega) hrlen (by omega) ?_ hhi
        intro i hi hilt
        have : i ≤ left + (right - left) / 2 := by omega
        exact lt_of_le_of_lt (hsort i _ hi hmidlt this) hklt
      · -- comparator `.eq`: found
        have hstep : binarySearchGo (fun a => cmp3 (key a) num) xs (fuel + 1) left right =
            .found (left + (right - left) / 2) := by
          simp only [binarySearchGo, if_pos hcond, hget, hord]
        rw [hstep]
        exact ⟨hmidlt, cmp3_eq_eq.mp hord⟩
      · -- comparator `.gt`: the probed key is above `num`
        have hkgt : num < key (xs.get ⟨left + (right - left) / 2, hmidlt⟩) :=
          cmp3_eq_gt.mp hord
        have hstep : binarySearchGo (fun a => cmp3 (key a) num) xs (fuel + 1) left right =
            binarySearchGo (fun a => cmp3 (key a) num) xs fuel
              left (left + (right - left) / 2) := by
          simp only [binarySearchGo, if_pos hcond, hget, hord]
        rw [hstep]
        refine ih left (left + (right - left) / 2) (by omega) (by omega) (by omega) hlo ?_
        intro i hi hile
        exact lt_of_lt_of_le hkgt (hsort _ i hmidlt hi hile)
    · have : left = right := by omega
      subst this
      simp only [binarySearchGo, if_neg hcond]
      exact ⟨le_trans hlr hrlen, hlo, hhi⟩

theorem binary_search_by_spec (key : α → T) (num : T) (xs : List α)
    (hsort : ∀ i j (hi : i < xs.length) (hj : j < xs.length), i ≤ j →
      key (xs.get ⟨i, hi⟩) ≤ key (xs.get ⟨j, hj⟩)) :
    (match binary_search_by (fun a => cmp3 (key a) num) xs with
     | .found k => ∃ hk : k < xs.length, key (xs.get ⟨k, hk⟩) = num
     | .notFound k => k ≤ xs.length ∧
         (∀ i (hi : i < xs.length), i < k → key (xs.get ⟨i, hi⟩) < num) ∧
         (∀ i (hi : i < xs.length), k ≤ i → num < key (xs.get ⟨i, hi⟩))) := by
  exact binarySearchGo_spec key num xs hsort (xs.length + 1) 0 xs.length
    (Nat.zero_le _) (le_refl _) (by omega)
    (fun i hi h => absurd h (Nat.not_lt_zero i))
    (fun i hi h => absurd hi (Nat.not_lt.mpr h))

/-! ### Decomposition helpers for updates of the bucket vector -/

theorem set_decomp (l : List α) (k : Nat) (hk : k < l.length) (b : α) :
    l.set k b = l.take k ++ b :: l.drop (k + 1) := by
  rw [List.set_eq_take_append_cons_drop, if_pos hk]

theorem get_decomp (l : List α) (k : Nat) (hk : k < l.length) :
    l = l.take k ++ l.get ⟨k, hk⟩ :: l.drop (k + 1) := by
  conv_lhs => rw [← List.take_append_drop k l, List.drop_eq_getElem_cons hk]
  rfl

theorem length_take_of_lt {l : List α} {k : Nat} (hk : k < l.length) :
    (l.take k).length = k := by
  simp [List.length_take]
  omega

theorem getElem?_middle (pre : List α) (b : α) (post : List α) :
    (pre ++ b :: post)[pre.length]? = some b := by
  rw [List.getElem?_append_right (le_refl _)]
  simp

theorem getElem?_middle_left {pre : List α} {k : Nat} (hk : k < pre.length)
    (rest : List α) : (pre ++ rest)[k]? = pre[k]? := by
  rw [List.getElem?_append, if_pos hk]

theorem mem_middle_cases {pre : List α} {b : α} {post : List α} {x : α}
    (hx : x ∈ pre ++ b :: post) : x ∈ pre ∨ x = b ∨ x ∈ post := by
  rcases List.mem_append.mp hx with h | h
  · exact Or.inl h
  · rcases List.mem_cons.mp h with h | h
    · exact Or.inr (Or.inl h)
    · exact Or.inr (Or.inr h)

/-- Both cross-bucket relations between the element at position `k` and the
rest of a pairwise-related list. -/
theorem crossRel_split {bs : List (Bucket T)} (h : List.Pairwise crossRel bs)
    {k : Nat} (hk : k < bs.length) :
    (∀ p ∈ bs.take k, crossRel p (bs.get ⟨k, hk⟩)) ∧
    (∀ q ∈ bs.drop (k + 1), crossRel (bs.get ⟨k, hk⟩) q) ∧
    (∀ p ∈ bs.take k, ∀ q ∈ bs.drop (k + 1), crossRel p q) := by
  have hdec := get_decomp bs k hk
  rw [hdec, List.pairwise_append] at h
  obtain ⟨hpre, hcons, hmix⟩ := h
  refine ⟨?_, ?_, ?_⟩
  · intro p hp
    exact hmix p hp _ (List.mem_cons_self _ _)
  · intro q hq
    exact (List.rel_of_pairwise_cons hcons) hq
  · intro p hp q hq
    exact hmix p hp q (List.mem_cons_of_mem _ hq)

/-- The structural bucket invariant is preserved by replacing the bucket at
position `k` with a bucket that satisfies the local invariants and the
cross-bucket relations with the untouched prefix and suffix. -/
theorem BucketsOk_set {bs : List (Bucket T)} (h : BucketsOk bs) {k : Nat}
    (hk : k < bs.length) {b' : Bucket T}
    (hne : b'.values ≠ [])
    (hminle : ∀ x ∈ b'.values, b'.min_value ≤ x)
    (hminmem : b'.min_value ∈ b'.values)
    (hflag : b'.sorted = true → List.Sorted (· ≤ ·) b'.values)
    (hcrossL : ∀ p ∈ bs.take k, crossRel p b')
    (hcrossR : ∀ q ∈ bs.drop (k + 1), crossRel b' q) :
    BucketsOk (bs.set k b') := by
  rw [set_decomp bs k hk b']
  have hmem : ∀ x, x ∈ bs.take k ++ b' :: bs.drop (k + 1) →
      x ∈ bs ∨ x = b' := by
    intro x hx
    rcases mem_middle_cases hx with hx | hx | hx
    · exact Or.inl (List.mem_of_mem_take hx)
    · exact Or.inr hx
    · exact Or.inl (List.mem_of_mem_drop hx)
  refine ⟨?_, ?_, ?_, ?_, ?_⟩
  · intro b hb
    rcases hmem b hb with hb' | hb'
    · exact h.nonempty b hb'
    · rw [hb']; exact hne
  · intro b hb
    rcases hmem b hb with hb' | hb'
    · exact h.min_le b hb'
    · rw [hb']; exact hminle
  · intro b hb
    rcases hmem b hb with hb' | hb'
    · exact h.min_mem b hb'
    · rw [hb']; exact hminmem
  · have horig := h.cross
    rw [get_decomp bs k hk, List.pairwise_append] at horig
    obtain ⟨hpre, hcons, hmix⟩ := horig
    rw [List.pairwise_append]
    refine ⟨hpre, ?_, ?_⟩
    · rw [List.pairwise_cons]
      exact ⟨hcrossR, hcons.of_cons⟩
    · intro p hp y hy
      rcases List.mem_cons.mp hy with hy | hy
      · rw [hy]; exact hcrossL p hp
      · exact hmix p hp y (List.mem_cons_of_mem _ hy)
  · intro b hb
    rcases hmem b hb with hb' | hb'
    · exact h.flag_sorted b hb'
    · rw [hb']; exact hflag

/-- Replacing the bucket at `k` with a bucket holding one more value `num`
extends the concatenated contents by `num`, up to permutation. -/
theorem joinVals_set_perm {bs : List (Bucket T)} {k : Nat} (hk : k < bs.length)
    {b' : Bucket T} {num : T}
    (hperm : List.Perm b'.values ((bs.get ⟨k, hk⟩).values ++ [num])) :
    List.Perm (joinVals (bs.set k b')) (num :: joinVals bs) := by
  rw [set_decomp bs k hk b']
  conv_rhs => rw [get_decomp bs k hk]
  rw [joinVals_append, joinVals_append]
  show List.Perm (joinVals (bs.take k) ++ (b'.values ++ joinVals (bs.drop (k+1))))
    (num :: (joinVals (bs.take k) ++ ((bs.get ⟨k, hk⟩).values ++ joinVals (bs.drop (k+1)))))
  have h1 : List.Perm (joinVals (bs.take k) ++ (b'.values ++ joinVals (bs.drop (k+1))))
      (joinVals (bs.take k) ++ (((bs.get ⟨k, hk⟩).values ++ [num]) ++ joinVals (bs.drop (k+1)))) :=
    List.Perm.append_left _ (List.Perm.append hperm (List.Perm.refl _))
  have h2 : List.Perm
      (joinVals (bs.take k) ++ (((bs.get ⟨k, hk⟩).values ++ [num]) ++ joinVals (bs.drop (k+1))))
      (joinVals (bs.take k) ++ ((num :: (bs.get ⟨k, hk⟩).values) ++ joinVals (bs.drop (k+1)))) :=
    List.Perm.append_left _
      (List.Perm.append (List.perm_append_singleton num _) (List.Perm.refl _))
  have h3 : List.Perm
      (joinVals (bs.take k) ++ ((num :: (bs.get ⟨k, hk⟩).values) ++ joinVals (bs.drop (k+1))))
      (num :: (joinVals (bs.take k) ++ ((bs.get ⟨k, hk⟩).values ++ joinVals (bs.drop (k+1))))) := by
    simpa using (@List.perm_middle _ num (joinVals (bs.take k))
      ((bs.get ⟨k, hk⟩).values ++ joinVals (bs.drop (k + 1))))
  exact (h1.trans h2).trans h3

/-- Replacing the bucket at `k` with a bucket holding a permutation of the
same values preserves the concatenated contents up to permutation. -/
theorem joinVals_set_perm_congr {bs : List (Bucket T)} {k : Nat} (hk : k < bs.length)
    {b' : Bucket T}
    (hperm : List.Perm b'.values (bs.get ⟨k, hk⟩).values) :
    List.Perm (joinVals (bs.set k b')) (joinVals bs) := by
  rw [set_decomp bs k hk b']
  conv_rhs => rw [get_decomp bs k hk]
  rw [joinVals_append, joinVals_append]
  exact List.Perm.append_left _ (List.Perm.append hperm (List.Perm.refl _))

/-- Effect of a one-element-bigger replacement on prefix sums of sizes. -/
theorem sumLens_take_set {bs : List (Bucket T)} {k : Nat} (hk : k < bs.length)
    {b' : Bucket T} (hlen : b'.values.length = (bs.get ⟨k, hk⟩).values.length + 1)
    (i : Nat) :
    sumLens ((bs.set k b').take i) =
      sumLens (bs.take i) + (if k < i then 1 else 0) := by
  induction bs generalizing k i with
  | nil => cases hk
  | cons c rest ih =>
    cases k with
    | zero =>
      cases i with
      | zero => simp [sumLens]
      | succ i' =>
        simp only [List.set_cons_zero, List.take_succ_cons, sumLens]
        rw [if_pos (Nat.succ_pos i')]
        have : b'.values.length = c.values.length + 1 := by simpa using hlen
        omega
    | succ k' =>
      cases i with
      | zero => simp [sumLens]
      | succ i' =>
        have hk' : k' < rest.length := by simpa using hk
        have hlen' : b'.values.length = (rest.get ⟨k', hk'⟩).values.length + 1 := by
          simpa using hlen
        simp only [List.set_cons_succ, List.take_succ_cons, sumLens]
        rw [ih hk' hlen']
        have : (k' < i') = (k' + 1 < i' + 1) := by simp
        split <;> split <;> omega

/-- Prefix sums of sizes are unchanged by replacing a bucket at or past the
prefix, or by replacing a bucket with one of the same size. -/
theorem sumLens_take_set_same {bs : List (Bucket T)} {k : Nat} (hk : k < bs.length)
    {b' : Bucket T} (hlen : b'.values.length = (bs.get ⟨k, hk⟩).values.length)
    (i : Nat) :
    sumLens ((bs.set k b').take i) = sumLens (bs.take i) := by
  induction bs generalizing k i with
  | nil => cases hk
  | cons c rest ih =>
    cases k with
    | zero =>
      cases i with
      | zero => simp [sumLens]
      | succ i' =>
        simp only [List.set_cons_zero, List.take_succ_cons, sumLens]
        have : b'.values.length = c.values.length := by simpa using hlen
        omega
    | succ k' =>
      cases i with
      | zero => simp [sumLens]
      | succ i' =>
        have hk' : k' < rest.length := by simpa using hk
        have hlen' : b'.values.length = (rest.get ⟨k', hk'⟩).values.length := by
          simpa using hlen
        simp only [List.set_cons_succ, List.take_succ_cons, sumLens]
        rw [ih hk' hlen']

/-! ### Facts about `split_at_median` -/

theorem sorted_le_getElem {l : List T} (h : List.Sorted (· ≤ ·) l) {i j : Nat}
    (hi : i < l.length) (hj : j < l.length) (hij : i ≤ j) :
    l.get ⟨i, hi⟩ ≤ l.get ⟨j, hj⟩ := by
  rcases Nat.lt_or_ge i j with hlt | hge
  · have := List.pairwise_iff_getElem.mp h i j hi hj hlt
    simpa using this
  · have : i = j := le_antisymm hij hge
    subst this
    exact le_refl _

theorem split_at_median_isSome {b : Bucket T} (hne : b.values ≠ []) :
    ∃ lower upper, b.split_at_median = some (lower, upper) := by
  have hpos : 0 < b.values.length := List.length_pos.mpr hne
  have hmid : b.values.length / 2 < (sortList b.values).length := by
    rw [sortList_length]
    exact Nat.div_lt_self hpos (by omega)
  refine ⟨⟨b.min_value, (sortList b.values).take (b.values.length / 2), false⟩,
          ⟨(sortList b.values).get ⟨b.values.length / 2, hmid⟩,
           (sortList b.values).drop (b.values.length / 2), false⟩, ?_⟩
  simp only [Bucket.split_at_median]
  rw [List.getElem?_eq_getElem hmid]
  rfl

theorem split_at_median_inv {b lower upper : Bucket T}
    (hsp : b.split_at_median = some (lower, upper)) :
    lower.min_value = b.min_value ∧
    lower.values = (sortList b.values).take (b.values.length / 2) ∧
    lower.sorted = false ∧
    upper.values = (sortList b.values).drop (b.values.length / 2) ∧
    upper.sorted = false ∧
    (sortList b.values)[b.values.length / 2]? = some upper.min_value := by
  simp only [Bucket.split_at_median] at hsp
  rcases hget : (sortList b.values)[b.values.length / 2]? with _ | v
  · rw [hget] at hsp
    cases hsp
  · rw [hget] at hsp
    simp only [Option.some.injEq, Prod.mk.injEq] at hsp
    obtain ⟨hlo, hup⟩ := hsp
    subst hlo
    subst hup
    exact ⟨rfl, rfl, rfl, rfl, rfl, rfl⟩

/-- All properties of a successful split needed both for the size-bounding
loop of `rebalance` and for the specification claims. -/
theorem split_facts {b lower upper : Bucket T}
    (hsp : b.split_at_median = some (lower, upper))
    (hlen : 2 ≤ b.values.length)
    (hminle : ∀ x ∈ b.values, b.min_value ≤ x)
    (hminmem : b.min_value ∈ b.values) :
    lower.values.length = b.values.length / 2 ∧
    upper.values.length = b.values.length - b.values.length / 2 ∧
    lower.min_value = b.min_value ∧
    lower.sorted = false ∧ upper.sorted = false ∧
    (∀ x ∈ lower.values, x ∈ b.values) ∧
    (∀ x ∈ upper.values, x ∈ b.values) ∧
    (∀ x ∈ lower.values, x ≤ upper.min_value) ∧
    (∀ x ∈ upper.values, upper.min_value ≤ x) ∧
    lower.min_value ∈ lower.values ∧
    upper.min_value ∈ upper.values ∧
    upper.min_value ∈ b.values ∧
    lower.values ++ upper.values = sortList b.values := by
  obtain ⟨hmin, hvlo, hslo, hvup, hsup, hpiv⟩ := split_at_median_inv hsp
  have hslen : (sortList b.values).length = b.values.length := sortList_length _
  have hmidlt : b.values.length / 2 < (sortList b.values).length := by
    rw [hslen]; exact Nat.div_lt_self (by omega) (by omega)
  have hpivget : (sortList b.values).get ⟨b.values.length / 2, hmidlt⟩ = upper.min_value := by
    have := List.getElem?_eq_getElem hmidlt
    rw [this] at hpiv
    exact Option.some.inj hpiv
  have hsorted := sortList_sorted b.values
  have hlolen : lower.values.length = b.values.length / 2 := by
    rw [hvlo]
    exact length_take_of_lt hmidlt
  have huplen : upper.values.length = b.values.length - b.values.length / 2 := by
    rw [hvup, List.length_drop, hslen]
  have hmemlo : ∀ x ∈ lower.values, x ∈ b.values := by
    intro x hx
    rw [hvlo] at hx
    exact sortList_mem.mp (List.mem_of_mem_take hx)
  have hmemup : ∀ x ∈ upper.values, x ∈ b.values := by
    intro x hx
    rw [hvup] at hx
    exact sortList_mem.mp (List.mem_of_mem_drop hx)
  have hlole : ∀ x ∈ lower.values, x ≤ upper.min_value := by
    intro x hx
    rw [hvlo] at hx
    obtain ⟨k, hk, hkx⟩ := List.getElem_of_mem hx
    have hk' : k < b.values.length / 2 := by
      have := List.length_take (b.values.length / 2) (sortList b.values)
      omega
    have hkslt : k < (sortList b.values).length := by omega
    have : (sortList b.values).take (b.values.length / 2) = List.take (b.values.length / 2) (sortList b.values) := rfl
    rw [← hkx]
    have hgt : (List.take (b.values.length / 2) (sortList b.values))[k] =
        (sortList b.values)[k] := List.getElem_take ..
    rw [hgt, ← hpivget]
    exact sorted_le_getElem hsorted hkslt hmidlt (by omega)
  have huple : ∀ x ∈ upper.values, upper.min_value ≤ x := by
    intro x hx
    rw [hvup] at hx
    obtain ⟨k, hk, hkx⟩ := List.getElem_of_mem hx
    have hkd : b.values.length / 2 + k < (sortList b.values).length := by
      have := List.length_drop (b.values.length / 2) (sortList b.values)
      omega
    have hgd : (List.drop (b.values.length / 2) (sortList b.values))[k] =
        (sortList b.values)[b.values.length / 2 + k] := List.getElem_drop ..
    rw [← hkx, hgd, ← hpivget]
    exact sorted_le_getElem hsorted hmidlt hkd (by omega)
  have hheadeq : (sortList b.values).get ⟨0, by omega⟩ = b.min_value := by
    have hmem : b.min_value ∈ sortList b.values := sortList_mem.mpr hminmem
    obtain ⟨t, ht, htx⟩ := List.getElem_of_mem hmem
    have h1 : (sortList b.values).get ⟨0, by omega⟩ ≤ b.min_value := by
      rw [← htx]
      exact sorted_le_getElem hsorted (by omega) ht (Nat.zero_le t)
    have h2 : b.min_value ≤ (sortList b.values).get ⟨0, by omega⟩ :=
      hminle _ (sortList_mem.mp (List.getElem_mem ..))
    exact le_antisymm h1 h2
  have hlominmem : lower.min_value ∈ lower.values := by
    rw [hmin, hvlo]
    have h0 : 0 < (List.take (b.values.length / 2) (sortList b.values)).length := by
      rw [List.length_take]
      have : 1 ≤ b.values.length / 2 := by omega
      omega
    have : (List.take (b.values.length / 2) (sortList b.values))[0] =
        (sortList b.values)[0] := List.getElem_take ..
    have hmem := @List.getElem_mem _ (List.take (b.values.length / 2) (sortList b.values))
      0 h0
    rw [this] at hmem
    have : (sortList b.values)[0] = b.min_value := hheadeq
    rw [this] at hmem
    exact hmem
  have hupminmem : upper.min_value ∈ upper.values := by
    rw [hvup]
    have h0 : 0 < (List.drop (b.values.length / 2) (sortList b.values)).length := by
      rw [List.length_drop]
      omega
    have hg : (List.drop (b.values.length / 2) (sortList b.values))[0] =
        (sortList b.values)[b.values.length / 2 + 0] := List.getElem_drop ..
    have hmem := @List.getElem_mem _ (List.drop (b.values.length / 2) (sortList b.values))
      0 h0
    rw [hg] at hmem
    have : (sortList b.values)[b.values.length / 2 + 0] = upper.min_value := by
      simpa using hpivget
    rw [this] at hmem
    exact hmem
  have hupminb : upper.min_value ∈ b.values := hmemup _ hupminmem
  have happ : lower.values ++ upper.values = sortList b.values := by
    rw [hvlo, hvup]
    exact List.take_append_drop _ _
  exact ⟨hlolen, huplen, hmin, hslo, hsup, hmemlo, hmemup, hlole, huple,
    hlominmem, hupminmem, hupminb, happ⟩

/-! ### Preservation of the invariant by `insert` -/

theorem finishInsert_inv {t : PercentileTracker T} {vals : List T}
    (h : TrackerInv t vals) (num : T) {k : Nat} (hk : k < t.buckets.length)
    {b' : Bucket T}
    (hne : b'.values ≠ [])
    (hminle : ∀ x ∈ b'.values, b'.min_value ≤ x)
    (hminmem : b'.min_value ∈ b'.values)
    (hflag : b'.sorted = true → List.Sorted (· ≤ ·) b'.values)
    (hcrossL : ∀ p ∈ t.buckets.take k, crossRel p b')
    (hcrossR : ∀ q ∈ t.buckets.drop (k + 1), crossRel b' q)
    (hperm : List.Perm b'.values ((t.buckets.get ⟨k, hk⟩).values ++ [num])) :
    ∃ t', t.finishInsert (t.buckets.set k b') k = .ok t' ∧
      TrackerInv t' (vals ++ [num]) ∧ t'.percentile = t.percentile := by
  refine ⟨_, rfl, ?_, rfl⟩
  have hlen : b'.values.length = (t.buckets.get ⟨k, hk⟩).values.length + 1 := by
    have := hperm.length_eq
    simpa using this
  have hbok : BucketsOk (t.buckets.set k b') :=
    BucketsOk_set h.bok hk hne hminle hminmem hflag hcrossL hcrossR
  have hjperm : List.Perm (joinVals (t.buckets.set k b')) (num :: joinVals t.buckets) :=
    joinVals_set_perm hk hperm
  have hsum := sumLens_take_set hk hlen
  refine ⟨hbok, ?_, ?_, ?_, ?_, h.perc_lb, h.perc_ub, ?_, ?_⟩
  · simp [PercentileTracker.finishInsert, h.count_eq]
  · show List.Perm (joinVals (t.buckets.set k b')) (vals ++ [num])
    refine hjperm.trans ?_
    refine (List.Perm.cons num h.perm).trans ?_
    exact (List.perm_append_singleton num vals).symm
  · intro _
    show t.percentile_bucket_idx < (t.buckets.set k b').length
    rw [List.length_set]
    exact h.idx_lt (List.ne_nil_of_length_pos (by omega))
  · show (if k < t.percentile_bucket_idx then t.percentile_bucket_offset + 1
      else t.percentile_bucket_offset) =
      sumLens ((t.buckets.set k b').take t.percentile_bucket_idx)
    rw [hsum, ← h.offset_eq]
    split <;> omega
  · intro habs
    have hset : t.buckets.set k b' = [] := habs
    have hlz : (t.buckets.set k b').length = 0 := by rw [hset]; rfl
    rw [List.length_set] at hlz
    omega
  · intro habs
    simp [PercentileTracker.finishInsert] at habs

theorem insert_ok {t : PercentileTracker T} {vals : List T}
    (h : TrackerInv t vals) (num : T) :
    ∃ t', t.insert num = .ok t' ∧ TrackerInv t' (vals ++ [num]) ∧
      t'.percentile = t.percentile := by
  by_cases hbs : t.buckets.isEmpty
  · -- first insertion into an empty tracker
    have hbse : t.buckets = [] := List.isEmpty_iff.mp hbs
    have hvals : vals = [] := by
      have := h.perm
      rw [hbse] at this
      have hlen := this.length_eq
      simp [joinVals] at hlen
      exact List.length_eq_zero.mp hlen.symm
    have hcount : t.total_count = 0 := by rw [h.count_eq, hvals]; rfl
    obtain ⟨hidx0, hflag0⟩ := h.empty_flag hbse
    refine ⟨{ t with buckets := [Bucket.new num], total_count := t.total_count + 1 },
      by rw [PercentileTracker.insert, if_pos hbs], ?_, rfl⟩
    refine ⟨?_, ?_, ?_, ?_, ?_, h.perc_lb, h.perc_ub, ?_, ?_⟩
    · refine ⟨?_, ?_, ?_, ?_, ?_⟩
      · intro b hb
        rcases List.mem_singleton.mp hb with rfl
        simp [Bucket.new]
      · intro b hb x hx
        rcases List.mem_singleton.mp hb with rfl
        rcases List.mem_singleton.mp hx with rfl
        exact le_refl _
      · intro b hb
        rcases List.mem_singleton.mp hb with rfl
        simp [Bucket.new]
      · exact List.pairwise_singleton _ _
      · intro b hb _
        rcases List.mem_singleton.mp hb with rfl
        exact List.sorted_singleton _
    · simp [hcount, hvals]
    · show List.Perm (joinVals [Bucket.new num]) (vals ++ [num])
      rw [hvals]
      simp [joinVals, Bucket.new]
    · intro _
      simp [hidx0]
    · simp [hidx0, hbse, sumLens, h.offset_eq]
    · intro habs
      simp at habs
    · intro _ b hb
      simp [hidx0] at hb
      have hoff0 : t.percentile_bucket_offset = 0 := by
        rw [h.offset_eq, hbse]
        simp [sumLens]
      have htar : ({ t with buckets := [Bucket.new num], total_count := t.total_count + 1 } : PercentileTracker T).get_target_pos = 0 := by
        simp [PercentileTracker.get_target_pos, hcount]
        exact Nat.div_eq_of_lt (by have := h.perc_ub; omega)
      rw [htar, ← hb]
      simp [Bucket.new, MAX_BUCKET_SIZE, hoff0]
  · -- insertion into a non-empty tracker
    have hbsne : t.buckets ≠ [] := by
      intro habs
      rw [habs] at hbs
      exact hbs rfl
    have hlenpos : 0 < t.buckets.length := List.length_pos.mpr hbsne
    have hsort : ∀ i j (hi : i < t.buckets.length) (hj : j < t.buckets.length),
        i ≤ j → (t.buckets.get ⟨i, hi⟩).min_value ≤ (t.buckets.get ⟨j, hj⟩).min_value :=
      fun i j hi hj hij => minsMono h.bok hi hj hij
    have hspec := binary_search_by_spec Bucket.min_value num t.buckets hsort
    have hcr := fun (k : Nat) (hk : k < t.buckets.length) => crossRel_split h.bok.cross hk
    rcases hres : binary_search_by (fun b => cmp3 b.min_value num) t.buckets with k | k
    · -- `Ok(k)`: the value equals the cached minimum of bucket `k`
      rw [hres] at hspec
      obtain ⟨hk, hkey⟩ := hspec
      have hgetk : t.buckets[k]? = some (t.buckets.get ⟨k, hk⟩) :=
        List.getElem?_eq_getElem hk
      have hred : t.insert num =
          t.finishInsert (t.buckets.set k ((t.buckets.get ⟨k, hk⟩).push num)) k := by
        rw [PercentileTracker.insert, if_neg hbs]
        simp only [hres]
        rw [if_neg (by omega : ¬ k ≥ t.buckets.length)]
        simp only [hgetk]
        rw [if_neg (by
          rintro ⟨-, habs⟩
          rw [hkey] at habs
          exact lt_irrefl _ habs)]
        rw [if_pos hkey.symm]
      rw [hred]
      refine finishInsert_inv h num hk ?_ ?_ ?_ ?_ ?_ ?_ ?_
      · simp [Bucket.push]
      · intro x hx
        simp only [Bucket.push] at hx ⊢
        rcases List.mem_append.mp hx with hx | hx
        · exact h.bok.min_le _ (List.get_mem ..) x hx
        · rcases List.mem_singleton.mp hx with rfl
          exact le_of_eq hkey
      · simp only [Bucket.push]
        exact List.mem_append.mpr (Or.inl (h.bok.min_mem _ (List.get_mem ..)))
      · intro habs
        simp [Bucket.push] at habs
      · intro p hp
        intro x hx
        exact (hcr k hk).1 p hp x hx
      · intro q hq x hx
        simp only [Bucket.push] at hx
        rcases List.mem_append.mp hx with hx | hx
        · exact (hcr k hk).2.1 q hq x hx
        · rcases List.mem_singleton.mp hx with rfl
          rw [← hkey]
          exact (hcr k hk).2.1 q hq _ (h.bok.min_mem _ (List.get_mem ..))
      · simp [Bucket.push]
    · -- `Err(k)`: insertion-point cases
      rw [hres] at hspec
      obtain ⟨hklen, hlt, hgt⟩ := hspec
      by_cases hge : k ≥ t.buckets.length
      · -- value above every cached minimum: append to the last bucket
        have hlast : t.buckets.length - 1 < t.buckets.length := by omega
        have hgetl : t.buckets[t.buckets.length - 1]? =
            some (t.buckets.get ⟨t.buckets.length - 1, hlast⟩) :=
          List.getElem?_eq_getElem hlast
        have hminlt : (t.buckets.get ⟨t.buckets.length - 1, hlast⟩).min_value < num :=
          hlt _ hlast (by omega)
        have hred : t.insert num =
            t.finishInsert (t.buckets.set (t.buckets.length - 1)
              ((t.buckets.get ⟨t.buckets.length - 1, hlast⟩).push num))
              (t.buckets.length - 1) := by
          rw [PercentileTracker.insert, if_neg hbs]
          simp only [hres]
          rw [if_pos hge]
          simp only [hgetl]
        rw [hred]
        refine finishInsert_inv h num hlast ?_ ?_ ?_ ?_ ?_ ?_ ?_
        · simp [Bucket.push]
        · intro x hx
          simp only [Bucket.push] at hx ⊢
          rcases List.mem_append.mp hx with hx | hx
          · exact h.bok.min_le _ (List.get_mem ..) x hx
          · rcases List.mem_singleton.mp hx with rfl
            exact le_of_lt hminlt
        · simp only [Bucket.push]
          exact List.mem_append.mpr (Or.inl (h.bok.min_mem _ (List.get_mem ..)))
        · intro habs
          simp [Bucket.push] at habs
        · intro p hp x hx
          exact (hcr _ hlast).1 p hp x hx
        · intro q hq
          rw [show t.buckets.length - 1 + 1 = t.buckets.length from by omega,
            List.drop_length] at hq
          cases hq
        · simp [Bucket.push]
      · -- `k < len`
        push_neg at hge
        have hgetk : t.buckets[k]? = some (t.buckets.get ⟨k, hge⟩) :=
          List.getElem?_eq_getElem hge
        have hminkgt : num < (t.buckets.get ⟨k, hge⟩).min_value :=
          hgt k hge (le_refl k)
        by_cases hk0 : k = 0
        · -- below every cached minimum: extend the first bucket and its bound
          subst hk0
          have hred : t.insert num =
              t.finishInsert (t.buckets.set 0
                (((t.buckets.get ⟨0, hge⟩).push num).update_min_value num)) 0 := by
            rw [PercentileTracker.insert, if_neg hbs]
            simp only [hres]
            rw [if_neg (by omega : ¬ 0 ≥ t.buckets.length)]
            simp only [hgetk]
            rw [if_pos ⟨trivial, hminkgt⟩]
          rw [hred]
          refine finishInsert_inv h num hge ?_ ?_ ?_ ?_ ?_ ?_ ?_
          · simp [Bucket.push, Bucket.update_min_value]
          · intro x hx
            simp only [Bucket.push, Bucket.update_min_value] at hx ⊢
            rcases List.mem_append.mp hx with hx | hx
            · exact le_of_lt (lt_of_lt_of_le hminkgt (h.bok.min_le _ (List.get_mem ..) x hx))
            · rcases List.mem_singleton.mp hx with rfl
              exact le_refl _
          · simp only [Bucket.push, Bucket.update_min_value]
            exact List.mem_append.mpr (Or.inr (List.mem_singleton.mpr rfl))
          · intro habs
            simp [Bucket.push, Bucket.update_min_value] at habs
          · intro p hp
            simp at hp
          · intro q hq x hx
            simp only [Bucket.push, Bucket.update_min_value] at hx
            rcases List.mem_append.mp hx with hx | hx
            · exact (hcr 0 hge).2.1 q hq x hx
            · rcases List.mem_singleton.mp hx with rfl
              refine le_of_lt (lt_of_lt_of_le hminkgt ?_)
              exact (hcr 0 hge).2.1 q hq _ (h.bok.min_mem _ (List.get_mem ..))
          · simp [Bucket.push, Bucket.update_min_value]
        · -- interior insertion point: append to bucket `k - 1`
          have hk1 : k - 1 < t.buckets.length := by omega
          have hgetk1 : t.buckets[k - 1]? = some (t.buckets.get ⟨k - 1, hk1⟩) :=
            List.getElem?_eq_getElem hk1
          have hminlt : (t.buckets.get ⟨k - 1, hk1⟩).min_value < num :=
            hlt _ hk1 (by omega)
          have hred : t.insert num =
              t.finishInsert (t.buckets.set (k - 1)
                ((t.buckets.get ⟨k - 1, hk1⟩).push num)) (k - 1) := by
            rw [PercentileTracker.insert, if_neg hbs]
            simp only [hres]
            rw [if_neg (by omega : ¬ k ≥ t.buckets.length)]
            simp only [hgetk]
            rw [if_neg (by
              rintro ⟨habs, -⟩
              exact hk0 habs)]
            rw [if_neg (by
              intro habs
              rw [habs] at hminkgt
              exact lt_irrefl _ hminkgt)]
            rw [if_neg hk0]
            simp only [hgetk1]
          rw [hred]
          refine finishInsert_inv h num hk1 ?_ ?_ ?_ ?_ ?_ ?_ ?_
          · simp [Bucket.push]
          · intro x hx
            simp only [Bucket.push] at hx ⊢
            rcases List.mem_append.mp hx with hx | hx
            · exact h.bok.min_le _ (List.get_mem ..) x hx
            · rcases List.mem_singleton.mp hx with rfl
              exact le_of_lt hminlt
          · simp only [Bucket.push]
            exact List.mem_append.mpr (Or.inl (h.bok.min_mem _ (List.get_mem ..)))
          · intro habs
            simp [Bucket.push] at habs
          · intro p hp x hx
            exact (hcr _ hk1).1 p hp x hx
          · intro q hq x hx
            have hdrop : t.buckets.drop (k - 1 + 1) =
                t.buckets.get ⟨k, hge⟩ :: t.buckets.drop (k + 1) := by
              rw [show k - 1 + 1 = k from by omega]
              exact List.drop_eq_getElem_cons hge
            rw [hdrop] at hq
            simp only [Bucket.push] at hx
            have hxle : x ≤ (t.buckets.get ⟨k, hge⟩).min_value := by
              rcases List.mem_append.mp hx with hx | hx
              · exact (hcr _ hk1).2.1 (t.buckets.get ⟨k, hge⟩)
                  (by rw [hdrop]; exact List.mem_cons_self _ _) x hx
              · rcases List.mem_singleton.mp hx with rfl
                exact le_of_lt hminkgt
            rcases List.mem_cons.mp hq with hq | hq
            · rw [hq]
              exact hxle
            · refine le_trans hxle ?_
              exact (hcr k hge).2.1 q hq _ (h.bok.min_mem _ (List.get_mem ..))
          · simp [Bucket.push]

/-! ### Specification of the rebalance walks -/

theorem walkForward_spec (bs : List (Bucket T)) (target : Nat) :
    ∀ fuel idx₀ offset₀,
    offset₀ = sumLens (bs.take idx₀) →
    offset₀ ≤ target →
    target < sumLens bs →
    bs.length + 1 ≤ fuel + idx₀ →
    ∃ idx offset, walkForward bs target fuel idx₀ offset₀ = .ok (idx, offset) ∧
      offset = sumLens (bs.take idx) ∧ offset ≤ target ∧
      ∃ hi : idx < bs.length, target - offset < (bs.get ⟨idx, hi⟩).values.length := by
  intro fuel
  induction fuel with
  | zero =>
    intro idx₀ offset₀ hoff hle htar hfuel
    exfalso
    have h1 : bs.length < idx₀ := by omega
    have h2 : offset₀ = sumLens bs := by
      rw [hoff, sumLens_take_of_le (by omega)]
    omega
  | succ fuel ih =>
    intro idx₀ offset₀ hoff hle htar hfuel
    have hidxlt : idx₀ < bs.length := by
      by_contra hge
      push_neg at hge
      have : offset₀ = sumLens bs := by
        rw [hoff, sumLens_take_of_le hge]
      omega
    have hget : bs[idx₀]? = some (bs.get ⟨idx₀, hidxlt⟩) :=
      List.getElem?_eq_getElem hidxlt
    by_cases hcond : target - offset₀ ≥ (bs.get ⟨idx₀, hidxlt⟩).values.length
    · have hstep : walkForward bs target (fuel + 1) idx₀ offset₀ =
          walkForward bs target fuel (idx₀ + 1)
            (offset₀ + (bs.get ⟨idx₀, hidxlt⟩).values.length) := by
        simp only [walkForward, hget]
        rw [if_pos hcond]
      rw [hstep]
      refine ih (idx₀ + 1) _ ?_ ?_ htar (by omega)
      · rw [sumLens_take_succ hget, hoff]
      · omega
    · push_neg at hcond
      have hstep : walkForward bs target (fuel + 1) idx₀ offset₀ =
          .ok (idx₀, offset₀) := by
        simp only [walkForward, hget]
        rw [if_neg (by omega)]
      rw [hstep]
      exact ⟨idx₀, offset₀, rfl, hoff, hle, hidxlt, hcond⟩

theorem walkBackward_spec (bs : List (Bucket T)) (target : Nat) :
    ∀ fuel idx₀ offset₀,
    offset₀ = sumLens (bs.take idx₀) →
    idx₀ ≤ bs.length →
    idx₀ < fuel →
    ∃ idx offset, walkBackward bs target fuel idx₀ offset₀ = .ok (idx, offset) ∧
      offset = sumLens (bs.take idx) ∧ offset ≤ target ∧
      ((target < offset₀ →
          ∃ hi : idx < bs.length, target - offset < (bs.get ⟨idx, hi⟩).values.length) ∧
       (offset₀ ≤ target → idx = idx₀ ∧ offset = offset₀)) := by
  intro fuel
  induction fuel with
  | zero => intro idx₀ offset₀ _ _ hfuel; omega
  | succ fuel ih =>
    intro idx₀ offset₀ hoff hidxle hfuel
    by_cases hcond : target < offset₀
    · -- the loop body runs at least once
      have hidx0 : idx₀ ≠ 0 := by
        intro habs
        rw [habs] at hoff
        simp [sumLens] at hoff
        omega
      have hk1 : idx₀ - 1 < bs.length := by omega
      have hget : bs[idx₀ - 1]? = some (bs.get ⟨idx₀ - 1, hk1⟩) :=
        List.getElem?_eq_getElem hk1
      have hsucc : sumLens (bs.take idx₀) =
          sumLens (bs.take (idx₀ - 1)) + (bs.get ⟨idx₀ - 1, hk1⟩).values.length := by
        have := sumLens_take_succ hget
        rw [show idx₀ - 1 + 1 = idx₀ from by omega] at this
        exact this
      have hnounder : ¬ offset₀ < (bs.get ⟨idx₀ - 1, hk1⟩).values.length := by
        rw [hoff, hsucc]
        omega
      have hstep : walkBackward bs target (fuel + 1) idx₀ offset₀ =
          walkBackward bs target fuel (idx₀ - 1)
            (offset₀ - (bs.get ⟨idx₀ - 1, hk1⟩).values.length) := by
        simp only [walkBackward, hget]
        rw [if_pos hcond, if_neg hidx0, if_neg hnounder]
      rw [hstep]
      have hoff' : offset₀ - (bs.get ⟨idx₀ - 1, hk1⟩).values.length =
          sumLens (bs.take (idx₀ - 1)) := by
        rw [hoff, hsucc]
        omega
      obtain ⟨idx, offset, hrun, hoffeq, hofle, hback, hstop⟩ :=
        ih (idx₀ - 1) _ hoff' (by omega) (by omega)
      refine ⟨idx, offset, hrun, hoffeq, hofle, ?_, fun hc => absurd hcond (by omega)⟩
      intro _
      by_cases hagain : target < offset₀ - (bs.get ⟨idx₀ - 1, hk1⟩).values.length
      · exact hback hagain
      · push_neg at hagain
        obtain ⟨hidx, hoffeq'⟩ := hstop hagain
        subst hidx
        refine ⟨hk1, ?_⟩
        rw [hoffeq', hoff']
        rw [hoff, hsucc] at hcond
        omega
    · push_neg at hcond
      have hstep : walkBackward bs target (fuel + 1) idx₀ offset₀ =
          .ok (idx₀, offset₀) := by
        simp only [walkBackward]
        rw [if_neg (by omega)]
      rw [hstep]
      exact ⟨idx₀, offset₀, rfl, hoff, hcond,
        fun hc => absurd hc (by omega), fun _ => ⟨rfl, rfl⟩⟩

/-! ### Specification of the splitting loop -/

theorem insertAt_set_decomp (l : List α) {k : Nat} (hk : k < l.length) (a b : α) :
    insertAt (l.set k a) (k + 1) b = l.take k ++ a :: b :: l.drop (k + 1) := by
  unfold insertAt
  rw [set_decomp l k hk a]
  have hlen : (l.take k).length = k := length_take_of_lt hk
  rw [List.take_append_eq_append_take, List.drop_append_eq_append_drop, hlen]
  rw [show k + 1 - k = 1 from by omega]
  rw [List.take_of_length_le (by rw [hlen]; omega)]
  simp

theorem split_insert_facts {bs : List (Bucket T)} (h : BucketsOk bs) {k : Nat}
    {b : Bucket T} (hget : bs[k]? = some b) {lower upper : Bucket T}
    (hsp : b.split_at_median = some (lower, upper))
    (hlen2 : 2 ≤ b.values.length) :
    BucketsOk (bs.take k ++ lower :: upper :: bs.drop (k + 1)) ∧
    List.Perm (joinVals (bs.take k ++ lower :: upper :: bs.drop (k + 1))) (joinVals bs) ∧
    sumLens (bs.take k ++ lower :: upper :: bs.drop (k + 1)) = sumLens bs := by
  obtain ⟨hk, hbed⟩ := List.getElem?_eq_some.mp hget
  have hbmem : b ∈ bs := by
    rw [← hbed]
    exact List.getElem_mem hk
  obtain ⟨hlolen, huplen, hlomin, hlos, hups, hmemlo, hmemup, hlole, huple,
    hlominmem, hupminmem, hupminb, happ⟩ :=
    split_facts hsp hlen2 (h.min_le b hbmem) (h.min_mem b hbmem)
  have hdec : bs = bs.take k ++ b :: bs.drop (k + 1) := by
    have := get_decomp bs k hk
    rw [show bs.get ⟨k, hk⟩ = b from hbed] at this
    exact this
  have hmem' : ∀ x, x ∈ bs.take k ++ lower :: upper :: bs.drop (k + 1) →
      x ∈ bs ∨ x = lower ∨ x = upper := by
    intro x hx
    rcases List.mem_append.mp hx with hx | hx
    · exact Or.inl (List.mem_of_mem_take hx)
    · rcases List.mem_cons.mp hx with hx | hx
      · exact Or.inr (Or.inl hx)
      · rcases List.mem_cons.mp hx with hx | hx
        · exact Or.inr (Or.inr hx)
        · exact Or.inl (List.mem_of_mem_drop hx)
  have hlone : lower.values ≠ [] := by
    have : 0 < lower.values.length := by rw [hlolen]; omega
    exact List.ne_nil_of_length_pos this
  have hupne : upper.values ≠ [] := by
    have : 0 < upper.values.length := by rw [huplen]; omega
    exact List.ne_nil_of_length_pos this
  have hbminup : b.min_value ≤ upper.min_value := h.min_le b hbmem _ hupminb
  refine ⟨⟨?_, ?_, ?_, ?_, ?_⟩, ?_, ?_⟩
  · intro x hx
    rcases hmem' x hx with hx | hx | hx
    · exact h.nonempty x hx
    · rw [hx]; exact hlone
    · rw [hx]; exact hupne
  · intro x hx
    rcases hmem' x hx with hx | hx | hx
    · exact h.min_le x hx
    · rw [hx]
      intro y hy
      rw [hlomin]
      exact h.min_le b hbmem y (hmemlo y hy)
    · rw [hx]
      exact huple
  · intro x hx
    rcases hmem' x hx with hx | hx | hx
    · exact h.min_mem x hx
    · rw [hx]; exact hlominmem
    · rw [hx]; exact hupminmem
  · have horig := h.cross
    rw [hdec, List.pairwise_append] at horig
    obtain ⟨hpre, hcons, hmix⟩ := horig
    have hbpost : ∀ q ∈ bs.drop (k + 1), crossRel b q :=
      fun q hq => List.rel_of_pairwise_cons hcons hq
    rw [List.pairwise_append]
    refine ⟨hpre, ?_, ?_⟩
    · rw [List.pairwise_cons]
      constructor
      · intro y hy
        rcases List.mem_cons.mp hy with hy | hy
        · rw [hy]
          exact hlole
        · intro x hx
          exact hbpost y hy x (hmemlo x hx)
      · rw [List.pairwise_cons]
        refine ⟨?_, hcons.of_cons⟩
        intro q hq x hx
        exact hbpost q hq x (hmemup x hx)
    · intro p hp y hy
      rcases List.mem_cons.mp hy with hy | hy
      · rw [hy]
        intro x hx
        rw [hlomin]
        exact hmix p hp b (List.mem_cons_self _ _) x hx
      · rcases List.mem_cons.mp hy with hy | hy
        · rw [hy]
          intro x hx
          exact le_trans (hmix p hp b (List.mem_cons_self _ _) x hx) hbminup
        · exact hmix p hp y (List.mem_cons_of_mem _ hy)
  · intro x hx
    rcases hmem' x hx with hx | hx | hx
    · exact h.flag_sorted x hx
    · rw [hx]
      intro habs
      rw [hlos] at habs
      simp at habs
    · rw [hx]
      intro habs
      rw [hups] at habs
      simp at habs
  · rw [joinVals_append]
    conv_rhs => rw [hdec, joinVals_append]
    refine List.Perm.append_left _ ?_
    show List.Perm (lower.values ++ (upper.values ++ joinVals (bs.drop (k + 1))))
      (b.values ++ joinVals (bs.drop (k + 1)))
    rw [← List.append_assoc, happ]
    exact List.Perm.append (sortList_perm _) (List.Perm.refl _)
  · rw [sumLens_append]
    conv_rhs => rw [hdec, sumLens_append]
    simp only [sumLens]
    omega

theorem splitLoop_spec (target : Nat) :
    ∀ fuel (bs : List (Bucket T)) idx offset b,
    BucketsOk bs →
    bs[idx]? = some b →
    offset = sumLens (bs.take idx) →
    offset ≤ target →
    target - offset < b.values.length →
    b.values.length + 1 ≤ fuel →
    ∃ bs2 idx2 offset2 b2,
      splitLoop target fuel bs idx offset = .ok (bs2, idx2, offset2) ∧
      BucketsOk bs2 ∧
      List.Perm (joinVals bs2) (joinVals bs) ∧
      sumLens bs2 = sumLens bs ∧
      bs2[idx2]? = some b2 ∧
      offset2 = sumLens (bs2.take idx2) ∧
      offset2 ≤ target ∧
      target - offset2 < b2.values.length ∧
      b2.values.length ≤ MAX_BUCKET_SIZE := by
  intro fuel
  induction fuel with
  | zero => intro bs idx offset b _ _ _ _ _ hfuel; omega
  | succ fuel ih =>
    intro bs idx offset b hbok hget hoff hole htar hfuel
    obtain ⟨hk, hbed⟩ := List.getElem?_eq_some.mp hget
    by_cases hbig : b.values.length > MAX_BUCKET_SIZE
    · -- the bucket is oversized: split once and continue
      have hbne : b.values ≠ [] := by
        refine List.ne_nil_of_length_pos ?_
        have : MAX_BUCKET_SIZE = 64 := rfl
        omega
      obtain ⟨lower, upper, hsp⟩ := split_at_median_isSome hbne
      have hlen2 : 2 ≤ b.values.length := by
        have : MAX_BUCKET_SIZE = 64 := rfl
        omega
      obtain ⟨hlolen, huplen, hlomin, hlos, hups, hmemlo, hmemup, hlole, huple,
        hlominmem, hupminmem, hupminb, happ⟩ :=
        split_facts hsp hlen2 (hbok.min_le b (by rw [← hbed]; exact List.getElem_mem hk))
          (hbok.min_mem b (by rw [← hbed]; exact List.getElem_mem hk))
      obtain ⟨hbok', hperm', hsum'⟩ := split_insert_facts hbok hget hsp hlen2
      have hdecomp : insertAt (bs.set idx lower) (idx + 1) upper =
          bs.take idx ++ lower :: upper :: bs.drop (idx + 1) :=
        insertAt_set_decomp bs hk lower upper
      have hpre_len : (bs.take idx).length = idx := length_take_of_lt hk
      have hget_lower :
          (bs.take idx ++ lower :: upper :: bs.drop (idx + 1))[idx]? = some lower := by
        have h0 := getElem?_middle (bs.take idx) lower (upper :: bs.drop (idx + 1))
        rw [hpre_len] at h0
        exact h0
      have hget_upper :
          (bs.take idx ++ lower :: upper :: bs.drop (idx + 1))[idx + 1]? = some upper := by
        have h0 := getElem?_middle (bs.take idx ++ [lower]) upper (bs.drop (idx + 1))
        have hlen1 : (bs.take idx ++ [lower]).length = idx + 1 := by
          simp [hpre_len]
        rw [hlen1] at h0
        rw [show (bs.take idx ++ [lower]) ++ upper :: bs.drop (idx + 1) =
          bs.take idx ++ lower :: upper :: bs.drop (idx + 1) from by simp] at h0
        exact h0
      have htake_same :
          (bs.take idx ++ lower :: upper :: bs.drop (idx + 1)).take idx = bs.take idx := by
        rw [List.take_append_eq_append_take, hpre_len]
        simp [List.take_take]
      have htake_succ :
          sumLens ((bs.take idx ++ lower :: upper :: bs.drop (idx + 1)).take (idx + 1)) =
            sumLens (bs.take idx) + lower.values.length := by
        rw [sumLens_take_succ hget_lower, htake_same]
      have hstep1 : splitLoop target (fuel + 1) bs idx offset =
          (if target - offset ≥ lower.values.length then
            splitLoop target fuel (insertAt (bs.set idx lower) (idx + 1) upper)
              (idx + 1) (offset + lower.values.length)
          else
            splitLoop target fuel (insertAt (bs.set idx lower) (idx + 1) upper)
              idx offset) := by
        simp only [splitLoop, hget, hsp]
        rw [if_pos hbig]
      by_cases hadv : target - offset ≥ lower.values.length
      · -- the rank pointer advances into the upper half
        rw [hstep1, if_pos hadv, hdecomp]
        have hupfuel : upper.values.length + 1 ≤ fuel := by
          rw [huplen]
          rw [hlolen] at hadv
          omega
        obtain ⟨bs2, idx2, offset2, b2, hrun, hbok2, hperm2, hsum2, hget2, hoff2,
          hole2, htar2, hsz2⟩ :=
          ih (bs.take idx ++ lower :: upper :: bs.drop (idx + 1)) (idx + 1)
            (offset + lower.values.length) upper hbok' hget_upper
            (by rw [htake_succ, hoff]) (by rw [hlolen] at hadv; omega)
            (by rw [huplen]; rw [hlolen] at hadv; rw [hlolen]; omega) hupfuel
        exact ⟨bs2, idx2, offset2, b2, hrun, hbok2, hperm2.trans hperm',
          by rw [hsum2, hsum'], hget2, hoff2, hole2, htar2, hsz2⟩
      · -- the rank pointer stays in the lower half
        push_neg at hadv
        rw [hstep1, if_neg (by omega), hdecomp]
        have hlofuel : lower.values.length + 1 ≤ fuel := by
          rw [hlolen]
          omega
        obtain ⟨bs2, idx2, offset2, b2, hrun, hbok2, hperm2, hsum2, hget2, hoff2,
          hole2, htar2, hsz2⟩ :=
          ih (bs.take idx ++ lower :: upper :: bs.drop (idx + 1)) idx offset lower
            hbok' hget_lower (by rw [htake_same, hoff]) hole hadv hlofuel
        exact ⟨bs2, idx2, offset2, b2, hrun, hbok2, hperm2.trans hperm',
          by rw [hsum2, hsum'], hget2, hoff2, hole2, htar2, hsz2⟩
    · -- the bucket is within bounds: the loop stops
      push_neg at hbig
      have hstep : splitLoop target (fuel + 1) bs idx offset = .ok (bs, idx, offset) := by
        simp only [splitLoop, hget]
        rw [if_neg (by omega)]
      exact ⟨bs, idx, offset, b, hstep, hbok, List.Perm.refl _, rfl, hget, hoff,
        hole, htar, hbig⟩

/-! ### Specification of `rebalance` -/

theorem ensure_sorted_facts (b : Bucket T)
    (hfs : b.sorted = true → List.Sorted (· ≤ ·) b.values) :
    List.Perm b.ensure_sorted.values b.values ∧
    b.ensure_sorted.min_value = b.min_value ∧
    b.ensure_sorted.sorted = true ∧
    List.Sorted (· ≤ ·) b.ensure_sorted.values ∧
    b.ensure_sorted.values.length = b.values.length := by
  unfold Bucket.ensure_sorted
  by_cases hs : b.sorted
  · rw [if_pos hs]
    exact ⟨List.Perm.refl _, rfl, hs, hfs hs, rfl⟩
  · rw [if_neg hs]
    exact ⟨sortList_perm _, rfl, rfl, sortList_sorted _, sortList_length _⟩

theorem rebalance_spec {t : PercentileTracker T} {vals : List T}
    (h : TrackerInv t vals) :
    ∃ t', t.rebalance = .ok t' ∧ TrackerInv t' vals ∧
      t'.total_count = t.total_count ∧ t'.percentile = t.percentile ∧
      t'.needs_rebalancing = false := by
  by_cases hflag : t.needs_rebalancing = false
  · exact ⟨t, by rw [PercentileTracker.rebalance, if_pos hflag], h, rfl, rfl, hflag⟩
  · have hbsne : t.buckets ≠ [] := fun habs => hflag (h.empty_flag habs).2
    have hlenpos : 0 < t.buckets.length := List.length_pos.mpr hbsne
    have hvpos : 0 < vals.length := by
      rcases hbs : t.buckets with _ | ⟨b0, rest⟩
      · exact absurd hbs hbsne
      · have hperm := h.perm
        rw [hbs] at hperm
        have hlen := hperm.length_eq
        have hb0 : b0 ∈ t.buckets := by rw [hbs]; exact List.mem_cons_self _ _
        have hb0ne := h.bok.nonempty b0 hb0
        have : 0 < b0.values.length := List.length_pos.mpr hb0ne
        simp [joinVals] at hlen
        omega
    have htot : sumLens t.buckets = vals.length := by
      rw [← length_joinVals, h.perm.length_eq]
    have htclt : t.get_target_pos < sumLens t.buckets := by
      rw [htot]
      unfold PercentileTracker.get_target_pos
      rw [h.count_eq]
      rw [Nat.div_lt_iff_lt_mul (by omega : (0:Nat) < 100)]
      have := h.perc_ub
      calc t.percentile * vals.length ≤ 99 * vals.length :=
        Nat.mul_le_mul_right _ this
      _ < vals.length * 100 := by omega
    -- step 1: re-anchor the rank pointer
    have hstep1 : ∃ idx1 offset1,
        (if t.get_target_pos ≥ t.percentile_bucket_offset then
          walkForward t.buckets t.get_target_pos (t.buckets.length + 1)
            t.percentile_bucket_idx t.percentile_bucket_offset
        else
          walkBackward t.buckets t.get_target_pos (t.percentile_bucket_idx + 1)
            t.percentile_bucket_idx t.percentile_bucket_offset) = .ok (idx1, offset1) ∧
        offset1 = sumLens (t.buckets.take idx1) ∧ offset1 ≤ t.get_target_pos ∧
        ∃ hi1 : idx1 < t.buckets.length,
          t.get_target_pos - offset1 < (t.buckets.get ⟨idx1, hi1⟩).values.length := by
      by_cases hdir : t.get_target_pos ≥ t.percentile_bucket_offset
      · obtain ⟨idx1, offset1, hrun, hoff1, hle1, hi1, htar1⟩ :=
          walkForward_spec t.buckets t.get_target_pos (t.buckets.length + 1)
            t.percentile_bucket_idx t.percentile_bucket_offset h.offset_eq hdir htclt
            (by omega)
        rw [if_pos hdir]
        exact ⟨idx1, offset1, hrun, hoff1, hle1, hi1, htar1⟩
      · push_neg at hdir
        obtain ⟨idx1, offset1, hrun, hoff1, hle1, hback, -⟩ :=
          walkBackward_spec t.buckets t.get_target_pos (t.percentile_bucket_idx + 1)
            t.percentile_bucket_idx t.percentile_bucket_offset h.offset_eq
            (le_of_lt (h.idx_lt hbsne)) (by omega)
        rw [if_neg (by omega)]
        obtain ⟨hi1, htar1⟩ := hback hdir
        exact ⟨idx1, offset1, hrun, hoff1, hle1, hi1, htar1⟩
    obtain ⟨idx1, offset1, hrun1, hoff1, hle1, hi1, htar1⟩ := hstep1
    -- step 2: bound the size of the target bucket by splitting
    have hget1 : t.buckets[idx1]? = some (t.buckets.get ⟨idx1, hi1⟩) :=
      List.getElem?_eq_getElem hi1
    obtain ⟨bs2, idx2, offset2, b2, hrun2, hbok2, hperm2, hsum2, hget2, hoff2,
      hole2, htar2, hsz2⟩ :=
      splitLoop_spec t.get_target_pos (sumLens t.buckets + 1) t.buckets idx1 offset1
        (t.buckets.get ⟨idx1, hi1⟩) h.bok hget1 hoff1 hle1 htar1
        (by have := bucket_len_le_sumLens hget1; omega)
    obtain ⟨hk2, hb2ed⟩ := List.getElem?_eq_some.mp hget2
    have hb2mem : b2 ∈ bs2 := by rw [← hb2ed]; exact List.getElem_mem hk2
    -- step 3: sort the target bucket
    obtain ⟨hesperm, hesmin, hessorted, hessortedvals, heslen⟩ :=
      ensure_sorted_facts b2 (hbok2.flag_sorted b2 hb2mem)
    have hred : t.rebalance = .ok { t with
        buckets := bs2.set idx2 b2.ensure_sorted,
        percentile_bucket_idx := idx2,
        percentile_bucket_offset := offset2,
        needs_rebalancing := false } := by
      rw [PercentileTracker.rebalance, if_neg hflag]
      simp only [hrun1, hrun2, hget2]
    refine ⟨_, hred, ?_, rfl, rfl, rfl⟩
    have hb2get : bs2.get ⟨idx2, hk2⟩ = b2 := hb2ed
    have hcr2 := crossRel_split hbok2.cross hk2
    rw [hb2get] at hcr2
    have hb2ne : b2.values ≠ [] := hbok2.nonempty b2 hb2mem
    have hb2pos : 0 < b2.values.length := List.length_pos.mpr hb2ne
    have hbokfin : BucketsOk (bs2.set idx2 b2.ensure_sorted) := by
      refine BucketsOk_set hbok2 hk2 ?_ ?_ ?_ ?_ ?_ ?_
      · refine List.ne_nil_of_length_pos ?_
        rw [heslen]
        exact hb2pos
      · intro x hx
        rw [hesmin]
        exact hbok2.min_le b2 hb2mem x (hesperm.mem_iff.mp hx)
      · rw [hesmin]
        exact hesperm.mem_iff.mpr (hbok2.min_mem b2 hb2mem)
      · intro _
        exact hessortedvals
      · intro p hp x hx
        rw [hesmin]
        exact hcr2.1 p hp x hx
      · intro q hq x hx
        exact hcr2.2.1 q hq x (hesperm.mem_iff.mp hx)
    have hpermfin : List.Perm (joinVals (bs2.set idx2 b2.ensure_sorted)) vals := by
      refine ((joinVals_set_perm_congr hk2 ?_).trans hperm2).trans h.perm
      rw [hb2get]
      exact hesperm
    have hgetfin : (bs2.set idx2 b2.ensure_sorted)[idx2]? = some b2.ensure_sorted := by
      rw [set_decomp bs2 idx2 hk2]
      have h0 := getElem?_middle (bs2.take idx2) b2.ensure_sorted (bs2.drop (idx2 + 1))
      rw [length_take_of_lt hk2] at h0
      exact h0
    refine ⟨hbokfin, h.count_eq, hpermfin, ?_, ?_, h.perc_lb, h.perc_ub, ?_, ?_⟩
    · intro _
      show idx2 < (bs2.set idx2 b2.ensure_sorted).length
      rw [List.length_set]
      exact hk2
    · show offset2 = sumLens ((bs2.set idx2 b2.ensure_sorted).take idx2)
      rw [sumLens_take_set_same hk2 (by rw [hb2get]; exact heslen), hoff2]
    · intro habs
      have hset : bs2.set idx2 b2.ensure_sorted = [] := habs
      have hlz : (bs2.set idx2 b2.ensure_sorted).length = 0 := by rw [hset]; rfl
      rw [List.length_set] at hlz
      omega
    · intro _ bq hbq
      show offset2 ≤ _ ∧ _
      rw [hgetfin] at hbq
      rcases Option.some.inj hbq with rfl
      refine ⟨hole2, ?_, hessorted, ?_⟩
      · rw [heslen]
        exact htar2
      · rw [heslen]
        exact hsz2

/-! ### Correctness of `get_percentile` -/

theorem sortList_vals_eq_joinSorted {bs : List (Bucket T)} {vals : List T}
    (hbok : BucketsOk bs) (hperm : List.Perm (joinVals bs) vals) :
    sortList vals = joinSorted bs := by
  refine List.eq_of_perm_of_sorted ?_ (sortList_sorted vals)
    (sorted_joinSorted hbok.min_le hbok.cross)
  exact ((sortList_perm vals).trans hperm.symm).trans
    (joinSorted_perm_joinVals bs).symm

theorem joinSorted_getElem {bs : List (Bucket T)} :
    ∀ {i : Nat} (hi : i < bs.length) {j : Nat},
    j < (bs.get ⟨i, hi⟩).values.length →
    (joinSorted bs)[sumLens (bs.take i) + j]? =
      (sortList (bs.get ⟨i, hi⟩).values)[j]? := by
  induction bs with
  | nil => intro i hi; cases hi
  | cons b rest ih =>
    intro i hi j hj
    cases i with
    | zero =>
      show (sortList b.values ++ joinSorted rest)[sumLens (List.take 0 (b :: rest)) + j]? = _
      have hjlen : j < (sortList b.values).length := by
        rw [sortList_length]
        exact hj
      simp only [List.take_zero, sumLens, Nat.zero_add]
      rw [List.getElem?_append, if_pos hjlen]
      rfl
    | succ i' =>
      have hi' : i' < rest.length := by simpa using hi
      have hj' : j < (rest.get ⟨i', hi'⟩).values.length := hj
      show (sortList b.values ++ joinSorted rest)[sumLens (List.take (i' + 1) (b :: rest)) + j]? = _
      have htake : sumLens (List.take (i' + 1) (b :: rest)) =
          b.values.length + sumLens (List.take i' rest) := by
        simp [List.take_succ_cons, sumLens]
      rw [htake]
      have hblen : (sortList b.values).length = b.values.length := sortList_length _
      rw [List.getElem?_append_right (by omega)]
      rw [hblen]
      rw [show b.values.length + sumLens (List.take i' rest) + j - b.values.length =
        sumLens (List.take i' rest) + j from by omega]
      exact ih hi' hj'

theorem get_percentile_spec {t : PercentileTracker T} {vals : List T}
    (h : TrackerInv t vals) (hvne : vals ≠ []) :
    ∃ v t', t.get_percentile = .ok (v, t') ∧ TrackerInv t' vals ∧
      t'.total_count = t.total_count ∧ t'.percentile = t.percentile ∧
      (sortList vals)[t.percentile * vals.length / 100]? = some v := by
  obtain ⟨t1, hreb, h1, hcount1, hperc1, hflag1⟩ := rebalance_spec h
  have hvpos : 0 < vals.length := List.length_pos.mpr hvne
  have hbs1ne : t1.buckets ≠ [] := by
    intro habs
    have hperm := h1.perm
    rw [habs] at hperm
    have := hperm.length_eq
    simp [joinVals] at this
    omega
  have hi1 : t1.percentile_bucket_idx < t1.buckets.length := h1.idx_lt hbs1ne
  have hget1 : t1.buckets[t1.percentile_bucket_idx]? =
      some (t1.buckets.get ⟨t1.percentile_bucket_idx, hi1⟩) :=
    List.getElem?_eq_getElem hi1
  obtain ⟨hole, htar, hsorted, hsz⟩ := h1.clean_ok hflag1 _ hget1
  set b := t1.buckets.get ⟨t1.percentile_bucket_idx, hi1⟩ with hbdef
  have hbsorted : List.Sorted (· ≤ ·) b.values :=
    h1.bok.flag_sorted b (by rw [hbdef]; exact List.get_mem ..) hsorted
  have hvalget : b.values[t1.get_target_pos - t1.percentile_bucket_offset]? =
      some (b.values.get ⟨t1.get_target_pos - t1.percentile_bucket_offset, htar⟩) :=
    List.getElem?_eq_getElem htar
  have hred : t.get_percentile = .ok
      (b.values.get ⟨t1.get_target_pos - t1.percentile_bucket_offset, htar⟩, t1) := by
    rw [PercentileTracker.get_percentile, hreb]
    simp only [hget1]
    rw [show Bucket.get_value_at b (t1.get_target_pos - t1.percentile_bucket_offset) =
      b.values[t1.get_target_pos - t1.percentile_bucket_offset]? from rfl]
    rw [hvalget]
  refine ⟨_, t1, hred, h1, hcount1, hperc1, ?_⟩
  -- the value read out of the target bucket is the target element of the
  -- fully sorted value sequence
  have hsorteq : sortList vals = joinSorted t1.buckets :=
    sortList_vals_eq_joinSorted h1.bok h1.perm
  have htarpos : t.percentile * vals.length / 100 = t1.get_target_pos := by
    unfold PercentileTracker.get_target_pos
    rw [hcount1, hperc1, h.count_eq]
  have hoffeq : t1.percentile_bucket_offset =
      sumLens (t1.buckets.take t1.percentile_bucket_idx) := h1.offset_eq
  have hidx := joinSorted_getElem hi1 htar
  have hindexeq : sumLens (t1.buckets.take t1.percentile_bucket_idx) +
      (t1.get_target_pos - t1.percentile_bucket_offset) = t1.get_target_pos := by
    rw [← hoffeq]
    omega
  rw [hindexeq] at hidx
  rw [hsorteq, htarpos, hidx, sortList_eq_self hbsorted]
  exact hvalget

theorem get_percentile_empty {t : PercentileTracker T}
    (h : TrackerInv t vals) (hvals : vals = []) :
    t.get_percentile = .error .indexOutOfBounds := by
  subst hvals
  have hbse : t.buckets = [] := by
    rcases hbs : t.buckets with _ | ⟨b0, rest⟩
    · rfl
    · exfalso
      have hlen : (joinVals t.buckets).length = 0 := by
        rw [h.perm.length_eq]
        rfl
      rw [hbs, show joinVals (b0 :: rest) = b0.values ++ joinVals rest from rfl,
        List.length_append] at hlen
      have hb0 : b0 ∈ t.buckets := by rw [hbs]; exact List.mem_cons_self _ _
      have : 0 < b0.values.length := List.length_pos.mpr (h.bok.nonempty b0 hb0)
      omega
  have hflag : t.needs_rebalancing = false := (h.empty_flag hbse).2
  rw [PercentileTracker.get_percentile]
  rw [PercentileTracker.rebalance, if_pos hflag]
  have hnone : t.buckets[t.percentile_bucket_idx]? = none := by
    rw [hbse]
    rfl
  simp only [hnone]

/-! ### Reachability and the main refinement -/

theorem TrackerInv_new {p : Nat} {t : PercentileTracker T}
    (h : PercentileTracker.new p = .ok t) : TrackerInv t [] ∧ t.percentile = p := by
  unfold PercentileTracker.new at h
  by_cases hp : 1 ≤ p ∧ p ≤ 99
  · rw [if_pos hp] at h
    rcases Except.ok.inj h with rfl
    refine ⟨⟨?_, ?_, ?_, ?_, ?_, hp.1, hp.2, ?_, ?_⟩, rfl⟩
    · exact ⟨fun b hb => absurd hb (List.not_mem_nil b),
        fun b hb => absurd hb (List.not_mem_nil b),
        fun b hb => absurd hb (List.not_mem_nil b),
        List.Pairwise.nil,
        fun b hb => absurd hb (List.not_mem_nil b)⟩
    · rfl
    · exact List.Perm.refl _
    · intro habs
      exact absurd rfl habs
    · rfl
    · intro _
      exact ⟨rfl, rfl⟩
    · intro _ b hb
      cases hb
  · rw [if_neg hp] at h
    cases h

theorem reachable_inv {t : PercentileTracker T} (h : Reachable t) :
    ∃ vals, TrackerInv t vals := by
  induction h with
  | constructed p t hnew => exact ⟨[], (TrackerInv_new hnew).1⟩
  | step_insert t t' num _ hins ih =>
    obtain ⟨vals, hinv⟩ := ih
    obtain ⟨t'', hins', hinv', -⟩ := insert_ok hinv num
    rw [hins] at hins'
    rcases Except.ok.inj hins' with rfl
    exact ⟨vals ++ [num], hinv'⟩
  | step_query t t' v _ hq ih =>
    obtain ⟨vals, hinv⟩ := ih
    by_cases hvals : vals = []
    · rw [get_percentile_empty hinv hvals] at hq
      cases hq
    · obtain ⟨v', t'', hq', hinv', -⟩ := get_percentile_spec hinv hvals
      rw [hq] at hq'
      rcases Except.ok.inj hq' with ⟨rfl, rfl⟩
      exact ⟨vals, hinv'⟩

theorem applyOps_reachable {t t' : PercentileTracker T} {ops : List (Op T)}
    (h : Reachable t) (hrun : applyOps t ops = .ok t') : Reachable t' := by
  induction ops generalizing t with
  | nil =>
    rcases Except.ok.inj hrun with rfl
    exact h
  | cons op rest ih =>
    cases op with
    | ins v =>
      unfold applyOps at hrun
      rcases hins : t.insert v with e | t1
      · rw [hins] at hrun
        cases hrun
      · rw [hins] at hrun
        exact ih (Reachable.step_insert t t1 v h hins) hrun
    | query =>
      unfold applyOps at hrun
      rcases hq : t.get_percentile with e | vt1
      · rw [hq] at hrun
        cases hrun
      · rw [hq] at hrun
        rcases vt1 with ⟨v, t1⟩
        exact ih (Reachable.step_query t t1 v h hq) hrun

/-- Core refinement: running any operation sequence in which every query is
preceded by at least one insertion produces exactly the oracle outputs. -/
theorem runOps_oracle {p : Nat} (ops : List (Op T)) :
    ∀ (t : PercentileTracker T) (vals : List T) (seen : Bool),
    TrackerInv t vals → t.percentile = p →
    insBefore seen ops = true → (seen = false → vals = []) →
    (seen = true → vals ≠ []) →
    Except.map (List.map some) (runOps t ops) = .ok (oracleRun p vals ops) := by
  induction ops with
  | nil =>
    intro t vals seen _ _ _ _ _
    rfl
  | cons op rest ih =>
    intro t vals seen hinv hp hguard hseenF hseenT
    cases op with
    | ins v =>
      obtain ⟨t', hins, hinv', hperc'⟩ := insert_ok hinv v
      show Except.map (List.map some)
        (match t.insert v with
         | .error e => .error e
         | .ok t' => runOps t' rest) = .ok (oracleRun p vals (Op.ins v :: rest))
      rw [hins]
      show Except.map (List.map some) (runOps t' rest) =
        .ok (oracleRun p (vals ++ [v]) rest)
      refine ih t' (vals ++ [v]) true hinv' (by rw [hperc', hp]) ?_ ?_ ?_
      · exact hguard
      · intro habs
        cases habs
      · intro _
        simp
    | query =>
      have hseen : seen = true := by
        cases hs : seen
        · rw [hs] at hguard
          unfold insBefore at hguard
          simp at hguard
        · rfl
      have hvne : vals ≠ [] := hseenT hseen
      obtain ⟨v, t', hq, hinv', hcount', hperc', hval⟩ :=
        get_percentile_spec hinv hvne
      have hrest : insBefore seen rest = true := by
        rw [hseen] at hguard ⊢
        unfold insBefore at hguard
        simpa using hguard
      have hih := ih t' vals seen hinv' (by rw [hperc', hp]) hrest hseenF hseenT
      show Except.map (List.map some)
        (match t.get_percentile with
         | .error e => .error e
         | .ok (v, t') =>
           match runOps t' rest with
           | .error e => .error e
           | .ok out => .ok (v :: out)) = .ok (oracleRun p vals (Op.query :: rest))
      rw [hq]
      rcases hrun : runOps t' rest with e | out
      · rw [hrun] at hih
        simp [Except.map] at hih
      · rw [hrun] at hih
        have hout : out.map some = oracleRun p vals rest := by
          simpa [Except.map] using hih
        rw [hp] at hval
        show Except.map (List.map some)
          (match runOps t' rest with
           | .error e => .error e
           | .ok out => .ok (v :: out)) = .ok (oracleRun p vals (Op.query :: rest))
        rw [hrun]
        simp only [Except.map, List.map_cons, oracleRun, hout, hval]

/-! ### Claim C1 -/

/-- C1: for every finite sequence of inserted values and every percentile `p`
in `[1, 99]`, after each insertion `get_percentile()` returns the element at
zero-based index `⌊p * count / 100⌋` of the ascending-sorted sequence of all
values inserted so far (duplicates counted individually); this holds for any
interleaving of insertions and queries in which every query is preceded by at
least one insertion, which covers both querying after every single insertion
and querying once after the full batch. -/
theorem C1_get_percentile_matches_oracle (p : Nat) (hp1 : 1 ≤ p) (hp2 : p ≤ 99)
    (ops : List (Op T)) (hops : insBefore false ops = true)
    (t0 : PercentileTracker T) (h0 : PercentileTracker.new p = .ok t0) :
    Except.map (List.map some) (runOps t0 ops) = .ok (oracleRun p [] ops) := by
  obtain ⟨hinv, hperc⟩ := TrackerInv_new h0
  exact runOps_oracle ops t0 [] false hinv hperc hops (fun _ => rfl)
    (fun habs => absurd habs (by decide))

/-- Witness for C1: three insertions interleaved with three queries at
`p = 90`; the outputs are the oracle values `5, 9, 9`. -/
theorem C1_witness :
    insBefore false [Op.ins (5 : Nat), Op.query, Op.ins 9, Op.query,
      Op.ins 7, Op.query] = true ∧
    Except.map (List.map some)
      (runOps (⟨[], 0, 0, 0, 90, false⟩ : PercentileTracker Nat)
        [Op.ins 5, Op.query, Op.ins 9, Op.query, Op.ins 7, Op.query]) =
      .ok (oracleRun 90 []
        [Op.ins 5, Op.query, Op.ins 9, Op.query, Op.ins 7, Op.query]) ∧
    oracleRun 90 ([] : List Nat)
      [Op.ins 5, Op.query, Op.ins 9, Op.query, Op.ins 7, Op.query] =
      [some 5, some 9, some 9] :=
  ⟨by decide,
   C1_get_percentile_matches_oracle 90 (by decide) (by decide) _ (by decide) _
     (by decide),
   by decide⟩

/-! ### Claim C2 -/

set_option maxRecDepth 10000 in
/-- Counterexample to C2 as stated: insert `1..65` at `p = 1`, query (the
first bucket splits into sizes 32/33), insert 66 copies of `1000` (all routed
to the last bucket), query again.  The rebalance completes
(`needs_rebalancing = false`, the target bucket is bucket 0) yet bucket 1
holds 99 > 64 elements: rebalance only bounds the bucket at
`target_bucket_index`, not every bucket. -/
theorem C2_counterexample :
    (applyOps (⟨[], 0, 0, 0, 1, false⟩ : PercentileTracker Nat)
      (((List.range 65).map (fun i => Op.ins (i + 1))) ++ [Op.query] ++
        List.replicate 66 (Op.ins 1000) ++ [Op.query])).map
      (fun t => (t.buckets.map Bucket.len, t.percentile_bucket_idx,
        t.needs_rebalancing)) =
    .ok ([32, 99], 0, false) ∧ MAX_BUCKET_SIZE < 99 :=
  ⟨by decide, by decide⟩

/-- C2 amended: after any rebalance has completed (whenever
`needs_rebalancing` is false), the bucket at `target_bucket_index` — but not
necessarily any other bucket — has at most `MAX_BUCKET_SIZE = 64` elements. -/
theorem C2_target_bucket_bounded (t : PercentileTracker T) (h : Reachable t)
    (hflag : t.needs_rebalancing = false) (b : Bucket T)
    (hb : t.buckets[t.percentile_bucket_idx]? = some b) :
    b.values.length ≤ MAX_BUCKET_SIZE := by
  obtain ⟨vals, hinv⟩ := reachable_inv h
  exact (hinv.clean_ok hflag b hb).2.2.2

/-- Witness for C2 (amended): a tracker holding one value, reached by
construction at `p = 50` followed by one insert. -/
theorem C2_witness : (⟨7, [7], true⟩ : Bucket Nat).values.length ≤ MAX_BUCKET_SIZE :=
  C2_target_bucket_bounded (⟨[⟨7, [7], true⟩], 1, 0, 0, 50, false⟩ : PercentileTracker Nat)
    (Reachable.step_insert (⟨[], 0, 0, 0, 50, false⟩ : PercentileTracker Nat)
      (⟨[⟨7, [7], true⟩], 1, 0, 0, 50, false⟩ : PercentileTracker Nat) 7
      (Reachable.constructed 50 (⟨[], 0, 0, 0, 50, false⟩ : PercentileTracker Nat)
        (by decide))
      (by decide))
    rfl _ rfl

/-! ### Claim C3 -/

set_option maxRecDepth 10000 in
/-- Counterexample to C3 as stated: after 65 insertions of the value `5` at
`p = 50` and one query, the rebalance splits the all-equal bucket and both
buckets cache the minimum `5`, so `buckets[0].minimum() < buckets[1].minimum()`
fails (the adjacent minima are equal, not strictly increasing). -/
theorem C3_counterexample :
    (applyOps (⟨[], 0, 0, 0, 50, false⟩ : PercentileTracker Nat)
      (List.replicate 65 (Op.ins 5) ++ [Op.query])).map
      (fun t => (t.buckets.map Bucket.min_value, t.needs_rebalancing)) =
      .ok ([5, 5], false) ∧
    ¬ (5 : Nat) < 5 :=
  ⟨by decide, by decide⟩

/-- C3 amended: in every reachable tracker state (in particular after a
completed rebalance), adjacent cached minima are non-decreasing —
`buckets[i].minimum() ≤ buckets[i+1].minimum()`, with equality possible when a
bucket of equal values was split — and every bucket's cached `lower_bound`
equals the true minimum of its contents (it is attained and bounds every
element). -/
theorem C3_adjacent_minima (t : PercentileTracker T) (h : Reachable t) :
    (∀ i (hi : i + 1 < t.buckets.length),
      (t.buckets.get ⟨i, Nat.lt_of_succ_lt hi⟩).min_value ≤
        (t.buckets.get ⟨i + 1, hi⟩).min_value) ∧
    (∀ b ∈ t.buckets, b.min_value ∈ b.values ∧ ∀ x ∈ b.values, b.min_value ≤ x) := by
  obtain ⟨vals, hinv⟩ := reachable_inv h
  refine ⟨?_, ?_⟩
  · intro i hi
    exact minsMono hinv.bok (Nat.lt_of_succ_lt hi) hi (Nat.le_succ i)
  · intro b hb
    exact ⟨hinv.bok.min_mem b hb, hinv.bok.min_le b hb⟩

set_option maxRecDepth 10000 in
/-- Witness for C3 (amended): the two-bucket tracker reached by 65 insertions
of `5` at `p = 50` and one query satisfies the non-strict adjacency bound. -/
theorem C3_witness :
    ((⟨[⟨5, List.replicate 32 5, false⟩, ⟨5, List.replicate 33 5, true⟩],
        65, 1, 32, 50, false⟩ : PercentileTracker Nat).buckets.get
      ⟨0, by decide⟩).min_value ≤
    ((⟨[⟨5, List.replicate 32 5, false⟩, ⟨5, List.replicate 33 5, true⟩],
        65, 1, 32, 50, false⟩ : PercentileTracker Nat).buckets.get
      ⟨1, by decide⟩).min_value :=
  (C3_adjacent_minima _
    (@applyOps_reachable Nat _ (⟨[], 0, 0, 0, 50, false⟩ : PercentileTracker Nat)
      (⟨[⟨5, List.replicate 32 5, false⟩, ⟨5, List.replicate 33 5, true⟩],
        65, 1, 32, 50, false⟩ : PercentileTracker Nat)
      (List.replicate 65 (Op.ins 5) ++ [Op.query])
      (Reachable.constructed 50 (⟨[], 0, 0, 0, 50, false⟩ : PercentileTracker Nat)
        (by decide))
      (by decide))).1
    0 (by decide)

/-! ### Claim C4 -/

/-- Counterexample to C4 as stated: calling `get_percentile` on a freshly
constructed tracker fails with the index-out-of-bounds panic of the bucket
indexing, not with a distinguished empty-state error condition — there is no
explicit empty guard in the code. -/
theorem C4_counterexample :
    Except.bind (PercentileTracker.new 90 : Except PanicKind (PercentileTracker Nat))
      PercentileTracker.get_percentile = .error .indexOutOfBounds := by
  decide

/-- C4 amended: calling `get_percentile()` on a reachable tracker with
`total_count = 0` fails with the out-of-bounds index access into the empty
bucket sequence (there is no explicit empty-state guard). -/
theorem C4_empty_query_out_of_bounds (t : PercentileTracker T) (h : Reachable t)
    (hcount : t.total_count = 0) :
    t.get_percentile = .error .indexOutOfBounds := by
  obtain ⟨vals, hinv⟩ := reachable_inv h
  have hvals : vals = [] := by
    have hc := hinv.count_eq
    rw [hcount] at hc
    exact List.length_eq_zero.mp hc.symm
  exact get_percentile_empty hinv hvals

/-- Witness for C4 (amended): the freshly constructed tracker at `p = 90`. -/
theorem C4_witness :
    (⟨[], 0, 0, 0, 90, false⟩ : PercentileTracker Nat).get_percentile =
      .error .indexOutOfBounds :=
  C4_empty_query_out_of_bounds _
    (Reachable.constructed 90 (⟨[], 0, 0, 0, 90, false⟩ : PercentileTracker Nat)
      (by decide)) rfl

/-! ### Claim C5 -/

/-- C5: for every bucket with `n` elements (`n ≥ 1` — the code panics on an
empty bucket), `split_at_median` leaves the receiver holding exactly `n / 2`
elements, each `≤` the median element, and returns a new bucket holding the
remaining `n - n / 2` elements, each `≥` the median element, with the new
bucket's `lower_bound` set to the median element's value (the element a full
sort puts at position `n / 2`); both resulting buckets are marked unsorted. -/
theorem C5_split_at_median_spec (b : Bucket T) (hne : b.values ≠ []) :
    ∃ lower upper, b.split_at_median = some (lower, upper) ∧
      lower.values.length = b.values.length / 2 ∧
      upper.values.length = b.values.length - b.values.length / 2 ∧
      (sortList b.values)[b.values.length / 2]? = some upper.min_value ∧
      (∀ x ∈ lower.values, x ≤ upper.min_value) ∧
      (∀ x ∈ upper.values, upper.min_value ≤ x) ∧
      lower.sorted = false ∧ upper.sorted = false := by
  obtain ⟨lower, upper, hsp⟩ := split_at_median_isSome hne
  obtain ⟨hmin, hvlo, hslo, hvup, hsup, hpiv⟩ := split_at_median_inv hsp
  have hslen : (sortList b.values).length = b.values.length := sortList_length _
  have hpos : 0 < b.values.length := List.length_pos.mpr hne
  have hmidlt : b.values.length / 2 < (sortList b.values).length := by
    rw [hslen]
    exact Nat.div_lt_self hpos (by omega)
  have hpivget : (sortList b.values).get ⟨b.values.length / 2, hmidlt⟩ =
      upper.min_value := by
    have hx := List.getElem?_eq_getElem hmidlt
    rw [hx] at hpiv
    exact Option.some.inj hpiv
  have hsorted := sortList_sorted b.values
  refine ⟨lower, upper, hsp, ?_, ?_, hpiv, ?_, ?_, hslo, hsup⟩
  · rw [hvlo]
    exact length_take_of_lt hmidlt
  · rw [hvup, List.length_drop, hslen]
  · intro x hx
    rw [hvlo] at hx
    obtain ⟨k, hk, hkx⟩ := List.getElem_of_mem hx
    have hk' : k < b.values.length / 2 := by
      have := List.length_take (b.values.length / 2) (sortList b.values)
      omega
    have hkslt : k < (sortList b.values).length := by omega
    rw [← hkx]
    have hgt : (List.take (b.values.length / 2) (sortList b.values))[k] =
        (sortList b.values)[k] := List.getElem_take ..
    rw [hgt, ← hpivget]
    exact sorted_le_getElem hsorted hkslt hmidlt (by omega)
  · intro x hx
    rw [hvup] at hx
    obtain ⟨k, hk, hkx⟩ := List.getElem_of_mem hx
    have hkd : b.values.length / 2 + k < (sortList b.values).length := by
      have := List.length_drop (b.values.length / 2) (sortList b.values)
      omega
    have hgd : (List.drop (b.values.length / 2) (sortList b.values))[k] =
        (sortList b.values)[b.values.length / 2 + k] := List.getElem_drop ..
    rw [← hkx, hgd, ← hpivget]
    exact sorted_le_getElem hsorted hmidlt hkd (by omega)

/-- Witness for C5: splitting the bucket `⟨1, [3, 1, 2], true⟩`. -/
theorem C5_witness :
    (⟨1, [3, 1, 2], true⟩ : Bucket Nat).values ≠ [] ∧
    (∃ lower upper,
      (⟨1, [3, 1, 2], true⟩ : Bucket Nat).split_at_median = some (lower, upper) ∧
      lower.values.length = (⟨1, [3, 1, 2], true⟩ : Bucket Nat).values.length / 2 ∧
      upper.values.length = (⟨1, [3, 1, 2], true⟩ : Bucket Nat).values.length -
        (⟨1, [3, 1, 2], true⟩ : Bucket Nat).values.length / 2 ∧
      (sortList (⟨1, [3, 1, 2], true⟩ : Bucket Nat).values)[
        (⟨1, [3, 1, 2], true⟩ : Bucket Nat).values.length / 2]? =
        some upper.min_value ∧
      (∀ x ∈ lower.values, x ≤ upper.min_value) ∧
      (∀ x ∈ upper.values, upper.min_value ≤ x) ∧
      lower.sorted = false ∧ upper.sorted = false) :=
  ⟨by decide, C5_split_at_median_spec _ (by decide)⟩

/-! ### Claim C6 -/

/-- C6: whenever `needs_rebalancing` is false, the sum of the sizes of all
buckets with index strictly less than `target_bucket_index` equals
`target_bucket_offset`. -/
theorem C6_offset_consistency (t : PercentileTracker T) (h : Reachable t)
    (hflag : t.needs_rebalancing = false) :
    sumLens (t.buckets.take t.percentile_bucket_idx) = t.percentile_bucket_offset := by
  obtain ⟨vals, hinv⟩ := reachable_inv h
  exact hinv.offset_eq.symm

/-- Witness for C6: a tracker holding one value, reached by construction at
`p = 50` followed by one insert (a state with `needs_rebalancing = false`). -/
theorem C6_witness :
    sumLens ((⟨[⟨7, [7], true⟩], 1, 0, 0, 50, false⟩ :
      PercentileTracker Nat).buckets.take 0) = 0 :=
  C6_offset_consistency _
    (Reachable.step_insert (⟨[], 0, 0, 0, 50, false⟩ : PercentileTracker Nat)
      (⟨[⟨7, [7], true⟩], 1, 0, 0, 50, false⟩ : PercentileTracker Nat) 7
      (Reachable.constructed 50 (⟨[], 0, 0, 0, 50, false⟩ : PercentileTracker Nat)
        (by decide))
      (by decide))
    rfl

/-! ### Claim C7 -/

/-- Counterexample to C7 as stated: the very first insert into an empty
tracker returns early and leaves `needs_rebalancing = false`. -/
theorem C7_counterexample :
    ((⟨[], 0, 0, 0, 90, false⟩ : PercentileTracker Nat).insert 5).map
      (fun t => t.needs_rebalancing) = .ok false := by
  decide

/-- C7 amended: every successful insert into a tracker that already holds at
least one bucket ends with `needs_rebalancing = true`; the very first insert
(empty bucket sequence) returns early and leaves `needs_rebalancing`
unchanged. -/
theorem C7_insert_sets_dirty_flag (t : PercentileTracker T) (num : T)
    (t' : PercentileTracker T) (h : t.insert num = .ok t') :
    (t.buckets ≠ [] → t'.needs_rebalancing = true) ∧
    (t.buckets = [] → t'.needs_rebalancing = t.needs_rebalancing) := by
  unfold PercentileTracker.insert at h
  by_cases hbs : t.buckets.isEmpty
  · rw [if_pos hbs] at h
    rcases Except.ok.inj h with rfl
    exact ⟨fun hne => absurd (List.isEmpty_iff.mp hbs) hne, fun _ => rfl⟩
  · rw [if_neg hbs] at h
    have hne : t.buckets ≠ [] := fun habs => hbs (by rw [habs]; rfl)
    refine ⟨fun _ => ?_, fun habs => absurd habs hne⟩
    simp only [PercentileTracker.finishInsert] at h
    repeat' split at h
    all_goals cases h
    all_goals rfl

/-- Witness for C7 (amended): inserting `6` into a one-bucket tracker sets
the flag; the hypotheses are discharged on the concrete insert. -/
theorem C7_witness :
    ((⟨[⟨5, [5], true⟩], 1, 0, 0, 90, false⟩ : PercentileTracker Nat).buckets ≠ [] →
      (⟨[⟨5, [5, 6], false⟩], 2, 0, 0, 90, true⟩ :
        PercentileTracker Nat).needs_rebalancing = true) ∧
    ((⟨[⟨5, [5], true⟩], 1, 0, 0, 90, false⟩ : PercentileTracker Nat).buckets = [] →
      (⟨[⟨5, [5, 6], false⟩], 2, 0, 0, 90, true⟩ :
        PercentileTracker Nat).needs_rebalancing =
      (⟨[⟨5, [5], true⟩], 1, 0, 0, 90, false⟩ :
        PercentileTracker Nat).needs_rebalancing) :=
  C7_insert_sets_dirty_flag _ 6 _ (by decide)

/-! ### Claim C8 -/

/-- C8: `insert` always succeeds for every value in every reachable tracker
state — the routing search always lands in one of the four documented cases,
so the fatal-assertion branch is unreachable. -/
theorem C8_insert_always_succeeds (t : PercentileTracker T) (h : Reachable t)
    (num : T) : ∃ t', t.insert num = .ok t' := by
  obtain ⟨vals, hinv⟩ := reachable_inv h
  obtain ⟨t', hins, -, -⟩ := insert_ok hinv num
  exact ⟨t', hins⟩

/-- Witness for C8: inserting into the freshly constructed tracker. -/
theorem C8_witness :
    ∃ t', (⟨[], 0, 0, 0, 90, false⟩ : PercentileTracker Nat).insert 5 = .ok t' :=
  C8_insert_always_succeeds _
    (Reachable.constructed 90 (⟨[], 0, 0, 0, 90, false⟩ : PercentileTracker Nat)
      (by decide)) 5

/-! ### Claim C9 -/

/-- C9: `new(percentile)` fails with the invalid-argument condition if and
only if `percentile` lies outside `[1, 99]`; for a percentile in range it
returns a tracker with an empty bucket sequence, `total_count = 0`, both rank
pointers at `0`, and `needs_rebalancing = false`. -/
theorem C9_construct_spec (p : Nat) :
    ((PercentileTracker.new p : Except PanicKind (PercentileTracker T)) =
        .error .invalidArgument ↔ ¬(1 ≤ p ∧ p ≤ 99)) ∧
    (1 ≤ p → p ≤ 99 →
      (PercentileTracker.new p : Except PanicKind (PercentileTracker T)) =
        .ok ⟨[], 0, 0, 0, p, false⟩) := by
  unfold PercentileTracker.new
  by_cases hp : 1 ≤ p ∧ p ≤ 99
  · rw [if_pos hp]
    refine ⟨⟨(fun habs => by cases habs), fun habs => absurd hp habs⟩, ?_⟩
    intro _ _
    rfl
  · rw [if_neg hp]
    exact ⟨⟨fun _ => hp, fun _ => rfl⟩, fun h1 h2 => absurd ⟨h1, h2⟩ hp⟩

/-- Witness for C9: construction fails at `p = 0` and succeeds at `p = 50`
with the documented initial state. -/
theorem C9_witness :
    ((PercentileTracker.new 0 : Except PanicKind (PercentileTracker Nat)) =
        .error .invalidArgument ↔ ¬(1 ≤ 0 ∧ 0 ≤ 99)) ∧
    (PercentileTracker.new 50 : Except PanicKind (PercentileTracker Nat)) =
      .ok ⟨[], 0, 0, 0, 50, false⟩ :=
  ⟨(C9_construct_spec 0).1, (C9_construct_spec 50).2 (by decide) (by decide)⟩

/-! ### Claim C10 -/

/-- C10: in every reachable tracker state, `total_count` equals the sum of
the sizes of all buckets (inserts add exactly one element to exactly one
bucket, and splitting moves elements between buckets without adding or
removing any). -/
theorem C10_count_eq_sum_of_sizes (t : PercentileTracker T) (h : Reachable t) :
    t.total_count = sumLens t.buckets := by
  obtain ⟨vals, hinv⟩ := reachable_inv h
  rw [hinv.count_eq, ← hinv.perm.length_eq, length_joinVals]

/-- Witness for C10: a tracker holding one value at `p = 60`. -/
theorem C10_witness :
    (⟨[⟨7, [7], true⟩], 1, 0, 0, 60, false⟩ : PercentileTracker Nat).total_count =
      sumLens (⟨[⟨7, [7], true⟩], 1, 0, 0, 60, false⟩ :
        PercentileTracker Nat).buckets :=
  C10_count_eq_sum_of_sizes _
    (Reachable.step_insert (⟨[], 0, 0, 0, 60, false⟩ : PercentileTracker Nat)
      (⟨[⟨7, [7], true⟩], 1, 0, 0, 60, false⟩ : PercentileTracker Nat) 7
      (Reachable.constructed 60 (⟨[], 0, 0, 0, 60, false⟩ : PercentileTracker Nat)
        (by decide))
      (by decide))
